import Mathlib

/-!
Verification of the data-derivation core of the "brainwave fortune" pages.

The repository ships two near-duplicate page scripts:
* `src/brainwave.js` — the reduced page ("Simple" namespace below): simpler
  ML-priority classifier, waveform generator without DC-bias removal.
* `src/unnamed/part_000` — the richer page ("Rich" namespace below):
  activeness-aware classifier with frequency weighting, tail deduplication,
  normalization, deterministic fortune selection, waveform generator with
  DC-bias removal.

The identifier codec (`encodeId` / `decodeId`) is textually identical in the
two files and is modelled once at top level.

Modelling conventions: JavaScript numbers are modelled as exact rationals
(`ℚ`) where the code only adds, multiplies, divides and compares, and as
reals (`ℝ`) where the code calls `Math.pow`/`Math.sin`.  Decimal literals
such as `0.25` are modelled by the corresponding rational.  Strings are
`List Char` on the codec side; JS bitwise `^` (which coerces through
ToInt32) is modelled by `jsXor` with an explicit wrap at 2^32.
-/

/-- The record of five EEG band powers `{alpha, beta, gamma, delta, theta}`
(one JS object literal field per band). -/
structure Brainwaves where
  alpha : ℚ
  beta : ℚ
  gamma : ℚ
  delta : ℚ
  theta : ℚ
  deriving DecidableEq

/-- The record of ML-derived scores `{focus, clear, meditation, dream}`. -/
structure MLAnalysis where
  focus : ℚ
  clear : ℚ
  meditation : ℚ
  dream : ℚ
  deriving DecidableEq

namespace Simple

/-- The running-maximum loop `for (const [wave, value] of Object.entries(waves))`
of `getDominantPattern` in src/brainwave.js (lines 977-982): update the current
champion whenever `value > maxValue && value > 0.25`. -/
def bandLoop : List (String × ℚ) → String → ℚ → String
  | [], maxWave, _ => maxWave
  | (wave, value) :: rest, maxWave, maxValue =>
    if value > maxValue ∧ value > 1/4 then bandLoop rest ("high_" ++ wave) value
    else bandLoop rest maxWave maxValue

/-- `Math.max(focus, clear, meditation, dream)` (src/brainwave.js line 958). -/
def mlMax4 (mlAnalysis : MLAnalysis) : ℚ :=
  max (max (max mlAnalysis.focus mlAnalysis.clear) mlAnalysis.meditation) mlAnalysis.dream

/-- `getDominantPattern(brainwaves, mlAnalysis)` of src/brainwave.js
(lines 955-985): ML states first (each must equal the max of the four and
beat its own cutoff, meditation 0.6, the others 0.7), then the per-band loop
over alpha, beta, gamma, theta (delta excluded) with cutoff 0.25. -/
def getDominantPattern (brainwaves : Brainwaves) (mlAnalysis : MLAnalysis) : String :=
  let mlMax := mlMax4 mlAnalysis
  if mlAnalysis.meditation = mlMax ∧ mlAnalysis.meditation > 3/5 then "high_meditation"
  else if mlAnalysis.focus = mlMax ∧ mlAnalysis.focus > 7/10 then "high_focus"
  else if mlAnalysis.clear = mlMax ∧ mlAnalysis.clear > 7/10 then "high_clear"
  else if mlAnalysis.dream = mlMax ∧ mlAnalysis.dream > 7/10 then "high_dream"
  else bandLoop [("alpha", brainwaves.alpha), ("beta", brainwaves.beta),
      ("gamma", brainwaves.gamma), ("theta", brainwaves.theta)] "balanced" 0

/-- Specification-side description of the per-band fallback: the earliest
band (in the order alpha, beta, gamma, theta) that strictly beats the 0.25
cutoff and is at least as large as every later band. -/
def bandFallback (brainwaves : Brainwaves) : String :=
  if brainwaves.alpha > 1/4 ∧ brainwaves.beta ≤ brainwaves.alpha ∧
      brainwaves.gamma ≤ brainwaves.alpha ∧ brainwaves.theta ≤ brainwaves.alpha then "high_alpha"
  else if brainwaves.beta > 1/4 ∧ brainwaves.gamma ≤ brainwaves.beta ∧
      brainwaves.theta ≤ brainwaves.beta then "high_beta"
  else if brainwaves.gamma > 1/4 ∧ brainwaves.theta ≤ brainwaves.gamma then "high_gamma"
  else if brainwaves.theta > 1/4 then "high_theta"
  else "balanced"

theorem bandLoop_no_update (l : List (String × ℚ)) (mw : String) (mv : ℚ)
    (h : ∀ p ∈ l, ¬(p.2 > mv ∧ p.2 > 1/4)) : bandLoop l mw mv = mw := by
  induction l with
  | nil => rfl
  | cons p rest ih =>
    obtain ⟨w, v⟩ := p
    simp only [bandLoop]
    rw [if_neg (h _ (List.mem_cons_self _ _))]
    exact ih fun q hq => h q (List.mem_cons_of_mem _ hq)

theorem bandLoop_accept (w : String) (v : ℚ) (rest : List (String × ℚ))
    (mw : String) (mv : ℚ) (h1 : v > mv) (h2 : v > 1/4) :
    bandLoop ((w, v) :: rest) mw mv = bandLoop rest ("high_" ++ w) v := by
  simp only [bandLoop]
  rw [if_pos ⟨h1, h2⟩]

theorem bandLoop_skip (w : String) (v : ℚ) (rest : List (String × ℚ))
    (mw : String) (mv : ℚ) (h : ¬(v > mv ∧ v > 1/4)) :
    bandLoop ((w, v) :: rest) mw mv = bandLoop rest mw mv := by
  simp only [bandLoop]
  rw [if_neg h]

theorem bandLoop_first_dominant (w : String) (v : ℚ) (rest : List (String × ℚ))
    (mw : String) (mv : ℚ) (h1 : v > mv) (h2 : v > 1/4)
    (hdom : ∀ p ∈ rest, p.2 ≤ v) :
    bandLoop ((w, v) :: rest) mw mv = "high_" ++ w := by
  rw [bandLoop_accept w v rest mw mv h1 h2]
  exact bandLoop_no_update _ _ _ fun q hq => by
    rintro ⟨hgt, -⟩
    exact absurd (hdom q hq) (not_le.mpr hgt)

theorem bandLoop_eq_bandFallback (bw : Brainwaves) :
    bandLoop [("alpha", bw.alpha), ("beta", bw.beta), ("gamma", bw.gamma),
      ("theta", bw.theta)] "balanced" 0 = bandFallback bw := by
  have dom3 : ∀ v : ℚ, bw.beta ≤ v → bw.gamma ≤ v → bw.theta ≤ v →
      ∀ p ∈ [("beta", bw.beta), ("gamma", bw.gamma), ("theta", bw.theta)], Prod.snd p ≤ v := by
    intro v h1 h2 h3 p hp
    simp only [List.mem_cons, List.not_mem_nil, or_false] at hp
    rcases hp with rfl | rfl | rfl <;> assumption
  have dom2 : ∀ v : ℚ, bw.gamma ≤ v → bw.theta ≤ v →
      ∀ p ∈ [("gamma", bw.gamma), ("theta", bw.theta)], Prod.snd p ≤ v := by
    intro v h1 h2 p hp
    simp only [List.mem_cons, List.not_mem_nil, or_false] at hp
    rcases hp with rfl | rfl <;> assumption
  have dom1 : ∀ v : ℚ, bw.theta ≤ v →
      ∀ p ∈ [("theta", bw.theta)], Prod.snd p ≤ v := by
    intro v h1 p hp
    simp only [List.mem_cons, List.not_mem_nil, or_false] at hp
    rcases hp with rfl
    exact h1
  have dom0 : ∀ v : ℚ, ∀ p ∈ ([] : List (String × ℚ)), Prod.snd p ≤ v := by
    intro v p hp
    exact absurd hp (List.not_mem_nil p)
  by_cases p1 : bw.alpha > 1/4 ∧ bw.beta ≤ bw.alpha ∧ bw.gamma ≤ bw.alpha ∧ bw.theta ≤ bw.alpha
  · obtain ⟨ha, hb, hg, ht⟩ := p1
    rw [bandFallback, if_pos ⟨ha, hb, hg, ht⟩]
    rw [bandLoop_first_dominant _ _ _ _ _ (by linarith) ha (dom3 _ hb hg ht)]
    rfl
  · by_cases p2 : bw.beta > 1/4 ∧ bw.gamma ≤ bw.beta ∧ bw.theta ≤ bw.beta
    · obtain ⟨hb, hg, ht⟩ := p2
      rw [bandFallback, if_neg p1, if_pos ⟨hb, hg, ht⟩]
      push_neg at p1
      rcases le_or_lt bw.alpha (1/4) with hle | hgt
      · rw [bandLoop_skip _ _ _ _ _ (by rintro ⟨-, h⟩; linarith)]
        rw [bandLoop_first_dominant _ _ _ _ _ (by linarith) hb (dom2 _ hg ht)]
        rfl
      · rcases le_or_lt bw.beta bw.alpha with hba | hba
        · exact absurd (p1 hgt hba (le_trans hg hba)) (not_lt.mpr (le_trans ht hba))
        · rw [bandLoop_accept _ _ _ _ _ (by linarith) hgt]
          rw [bandLoop_first_dominant _ _ _ _ _ hba hb (dom2 _ hg ht)]
          rfl
    · by_cases p3 : bw.gamma > 1/4 ∧ bw.theta ≤ bw.gamma
      · obtain ⟨hg, ht⟩ := p3
        rw [bandFallback, if_neg p1, if_neg p2, if_pos ⟨hg, ht⟩]
        push_neg at p1 p2
        rcases le_or_lt bw.alpha (1/4) with ha4 | ha4
        · rw [bandLoop_skip _ _ _ _ _ (by rintro ⟨-, h⟩; linarith)]
          rcases le_or_lt bw.beta (1/4) with hb4 | hb4
          · rw [bandLoop_skip _ _ _ _ _ (by rintro ⟨-, h⟩; linarith)]
            rw [bandLoop_first_dominant _ _ _ _ _ (by linarith) hg (dom1 _ ht)]
            rfl
          · rcases le_or_lt bw.gamma bw.beta with hgb | hgb
            · exact absurd (p2 hb4 hgb) (not_lt.mpr (le_trans ht hgb))
            · rw [bandLoop_accept _ _ _ _ _ (by linarith) hb4]
              rw [bandLoop_first_dominant _ _ _ _ _ hgb hg (dom1 _ ht)]
              rfl
        · rw [bandLoop_accept _ _ _ _ _ (by linarith) ha4]
          rcases le_or_lt bw.beta bw.alpha with hba | hba
          · rw [bandLoop_skip _ _ _ _ _ (by rintro ⟨h, -⟩; linarith)]
            rcases le_or_lt bw.gamma bw.alpha with hga | hga
            · exact absurd (p1 ha4 hba hga) (not_lt.mpr (le_trans ht hga))
            · rw [bandLoop_first_dominant _ _ _ _ _ hga hg (dom1 _ ht)]
              rfl
          · rw [bandLoop_accept _ _ _ _ _ hba (by linarith)]
            rcases le_or_lt bw.gamma bw.beta with hgb | hgb
            · exact absurd (p2 (by linarith) hgb) (not_lt.mpr (le_trans ht hgb))
            · rw [bandLoop_first_dominant _ _ _ _ _ hgb hg (dom1 _ ht)]
              rfl
      · by_cases p4 : bw.theta > 1/4
        · rw [bandFallback, if_neg p1, if_neg p2, if_neg p3, if_pos p4]
          push_neg at p1 p2 p3
          rcases le_or_lt bw.alpha (1/4) with ha4 | ha4
          · rw [bandLoop_skip _ _ _ _ _ (by rintro ⟨-, h⟩; linarith)]
            rcases le_or_lt bw.beta (1/4) with hb4 | hb4
            · rw [bandLoop_skip _ _ _ _ _ (by rintro ⟨-, h⟩; linarith)]
              rcases le_or_lt bw.gamma (1/4) with hg4 | hg4
              · rw [bandLoop_skip _ _ _ _ _ (by rintro ⟨-, h⟩; linarith)]
                rw [bandLoop_first_dominant _ _ _ _ _ (by linarith) p4 (dom0 _)]
                rfl
              · rw [bandLoop_accept _ _ _ _ _ (by linarith) hg4]
                rw [bandLoop_first_dominant _ _ _ _ _ (p3 hg4) p4 (dom0 _)]
                rfl
            · rw [bandLoop_accept _ _ _ _ _ (by linarith) hb4]
              rcases le_or_lt bw.gamma bw.beta with hgb | hgb
              · rw [bandLoop_skip _ _ _ _ _ (by rintro ⟨h, -⟩; linarith)]
                rw [bandLoop_first_dominant _ _ _ _ _ (p2 hb4 hgb) p4 (dom0 _)]
                rfl
              · rw [bandLoop_accept _ _ _ _ _ hgb (by linarith)]
                rw [bandLoop_first_dominant _ _ _ _ _ (p3 (by linarith)) p4 (dom0 _)]
                rfl
          · rw [bandLoop_accept _ _ _ _ _ (by linarith) ha4]
            rcases le_or_lt bw.beta bw.alpha with hba | hba
            · rw [bandLoop_skip _ _ _ _ _ (by rintro ⟨h, -⟩; linarith)]
              rcases le_or_lt bw.gamma bw.alpha with hga | hga
              · rw [bandLoop_skip _ _ _ _ _ (by rintro ⟨h, -⟩; linarith)]
                rw [bandLoop_first_dominant _ _ _ _ _ (p1 ha4 hba hga) p4 (dom0 _)]
                rfl
              · rw [bandLoop_accept _ _ _ _ _ hga (by linarith)]
                rw [bandLoop_first_dominant _ _ _ _ _ (p3 (by linarith)) p4 (dom0 _)]
                rfl
            · rw [bandLoop_accept _ _ _ _ _ hba (by linarith)]
              rcases le_or_lt bw.gamma bw.beta with hgb | hgb
              · rw [bandLoop_skip _ _ _ _ _ (by rintro ⟨h, -⟩; linarith)]
                rw [bandLoop_first_dominant _ _ _ _ _ (p2 (by linarith) hgb) p4 (dom0 _)]
                rfl
              · rw [bandLoop_accept _ _ _ _ _ hgb (by linarith)]
                rw [bandLoop_first_dominant _ _ _ _ _ (p3 (by linarith)) p4 (dom0 _)]
                rfl
        · rw [bandFallback, if_neg p1, if_neg p2, if_neg p3, if_neg p4]
          push_neg at p1 p2 p3 p4
          have ht4 : bw.theta ≤ 1/4 := p4
          have hg4 : bw.gamma ≤ 1/4 := by
            by_contra hc
            push_neg at hc
            exact absurd (p3 hc) (not_lt.mpr (by linarith))
          have hb4 : bw.beta ≤ 1/4 := by
            by_contra hc
            push_neg at hc
            rcases le_or_lt bw.gamma bw.beta with hgb | hgb
            · exact absurd (p2 hc hgb) (not_lt.mpr (by linarith))
            · linarith
          have ha4 : bw.alpha ≤ 1/4 := by
            by_contra hc
            push_neg at hc
            rcases le_or_lt bw.beta bw.alpha with hba | hba
            · rcases le_or_lt bw.gamma bw.alpha with hga | hga
              · exact absurd (p1 hc hba hga) (not_lt.mpr (by linarith))
              · linarith
            · linarith
          refine bandLoop_no_update _ _ _ fun p hp => ?_
          rintro ⟨-, hgt⟩
          simp only [List.mem_cons, List.not_mem_nil, or_false] at hp
          rcases hp with rfl | rfl | rfl | rfl <;> simp only at hgt <;> linarith

end Simple

namespace Rich

/-- `normalizeBrainwaves(rawValues)` of src/unnamed/part_000 (lines 287-300):
divide each band by the total, returning the input unchanged when the total
is exactly zero. -/
def normalizeBrainwaves (rawValues : Brainwaves) : Brainwaves :=
  let total := rawValues.alpha + rawValues.beta + rawValues.gamma +
    rawValues.delta + rawValues.theta
  if total = 0 then rawValues
  else ⟨rawValues.alpha / total, rawValues.beta / total, rawValues.gamma / total,
    rawValues.delta / total, rawValues.theta / total⟩

/-- The sum of the five band values of a record. -/
def bandSum (b : Brainwaves) : ℚ :=
  b.alpha + b.beta + b.gamma + b.delta + b.theta

/-- `getActivenessState(activenessArray)` of src/unnamed/part_000
(lines 1152-1192).  The argument is `Option`al: `none` models a missing
(null/undefined) array.  The three `forEach` counters are modelled by
`countP` with the branch conditions of the source's if/else-if/else. -/
def getActivenessState (activenessArray : Option (List ℚ)) : Option String :=
  match activenessArray with
  | none => none
  | some arr =>
    if arr.isEmpty then none
    else
      let activeCount := arr.countP (fun v => decide ((2:ℚ)/3 ≤ v))
      let clearCount := arr.countP (fun v => decide (¬((2:ℚ)/3 ≤ v) ∧ (1:ℚ)/3 ≤ v))
      let meditationCount := arr.countP (fun v => decide (¬((2:ℚ)/3 ≤ v) ∧ ¬((1:ℚ)/3 ≤ v)))
      let total : ℚ := arr.length
      if (activeCount : ℚ) / total ≥ 2/3 then some ("active")
      else if (clearCount : ℚ) / total ≥ 2/3 then some ("clear")
      else if (meditationCount : ℚ) / total ≥ 2/3 then some ("meditation")
      else some ("generic")

/-- Specification-side bucket fractions: `active` bucket is `v ≥ 2/3`. -/
def activeRatio (arr : List ℚ) : ℚ :=
  (arr.countP (fun v => decide ((2:ℚ)/3 ≤ v)) : ℚ) / arr.length

/-- Specification-side bucket fractions: `clear` bucket is `1/3 ≤ v < 2/3`. -/
def clearRatio (arr : List ℚ) : ℚ :=
  (arr.countP (fun v => decide ((1:ℚ)/3 ≤ v ∧ v < 2/3)) : ℚ) / arr.length

/-- Specification-side bucket fractions: `meditation` bucket is `v < 1/3`. -/
def meditationRatio (arr : List ℚ) : ℚ :=
  (arr.countP (fun v => decide (v < (1:ℚ)/3)) : ℚ) / arr.length

end Rich

namespace Rich

theorem countP_partition (arr : List ℚ) :
    arr.countP (fun v => decide ((2:ℚ)/3 ≤ v)) +
      arr.countP (fun v => decide (¬((2:ℚ)/3 ≤ v) ∧ (1:ℚ)/3 ≤ v)) +
      arr.countP (fun v => decide (¬((2:ℚ)/3 ≤ v) ∧ ¬((1:ℚ)/3 ≤ v))) = arr.length := by
  induction arr with
  | nil => rfl
  | cons a l ih =>
    simp only [List.countP_cons, List.length_cons, decide_eq_true_eq]
    by_cases h1 : (2:ℚ)/3 ≤ a
    · rw [if_pos h1, if_neg (fun h => h.1 h1), if_neg (fun h => h.1 h1)]
      omega
    · by_cases h2 : (1:ℚ)/3 ≤ a
      · rw [if_neg h1, if_pos ⟨h1, h2⟩, if_neg (fun h => h.2 h2)]
        omega
      · rw [if_neg h1, if_neg (fun h => h2 h.2), if_pos ⟨h1, h2⟩]
        omega

theorem clearCount_eq (arr : List ℚ) :
    arr.countP (fun v => decide (¬((2:ℚ)/3 ≤ v) ∧ (1:ℚ)/3 ≤ v)) =
      arr.countP (fun v => decide ((1:ℚ)/3 ≤ v ∧ v < 2/3)) := by
  apply List.countP_congr
  intro a _
  simp only [decide_eq_true_eq]
  constructor
  · rintro ⟨h1, h2⟩
    exact ⟨h2, lt_of_not_le h1⟩
  · rintro ⟨h1, h2⟩
    exact ⟨not_le.mpr h2, h1⟩

theorem medCount_eq (arr : List ℚ) :
    arr.countP (fun v => decide (¬((2:ℚ)/3 ≤ v) ∧ ¬((1:ℚ)/3 ≤ v))) =
      arr.countP (fun v => decide (v < (1:ℚ)/3)) := by
  apply List.countP_congr
  intro a _
  simp only [decide_eq_true_eq]
  constructor
  · rintro ⟨-, h2⟩
    exact lt_of_not_le h2
  · intro h
    constructor
    · rw [not_le]
      linarith
    · exact not_le.mpr h

theorem length_pos_q (arr : List ℚ) (h : arr ≠ []) : (0:ℚ) < arr.length := by
  exact_mod_cast List.length_pos.mpr h

theorem getActivenessState_some (arr : List ℚ) (h : arr ≠ []) :
    getActivenessState (some arr) =
      (if activeRatio arr ≥ 2/3 then some ("active")
       else if clearRatio arr ≥ 2/3 then some ("clear")
       else if meditationRatio arr ≥ 2/3 then some ("meditation")
       else some ("generic")) := by
  simp only [getActivenessState, activeRatio, clearRatio, meditationRatio,
    ← clearCount_eq, ← medCount_eq]
  rw [if_neg]
  simp [List.isEmpty_iff, h]

theorem ratio_sum (arr : List ℚ) (h : arr ≠ []) :
    activeRatio arr + clearRatio arr + meditationRatio arr = 1 := by
  have hp := countP_partition arr
  have hL := length_pos_q arr h
  simp only [activeRatio, clearRatio, meditationRatio, ← clearCount_eq, ← medCount_eq]
  rw [div_add_div_same, div_add_div_same, div_eq_one_iff_eq (ne_of_gt hL)]
  exact_mod_cast hp

theorem activeRatio_nonneg (arr : List ℚ) : 0 ≤ activeRatio arr :=
  div_nonneg (Nat.cast_nonneg _) (Nat.cast_nonneg _)

theorem clearRatio_nonneg (arr : List ℚ) : 0 ≤ clearRatio arr :=
  div_nonneg (Nat.cast_nonneg _) (Nat.cast_nonneg _)

theorem meditationRatio_nonneg (arr : List ℚ) : 0 ≤ meditationRatio arr :=
  div_nonneg (Nat.cast_nonneg _) (Nat.cast_nonneg _)

end Rich

/-- Claim C3, counterexample: with ML scores `focus = 0.69`, `clear = 0`,
`meditation = 0.65`, `dream = 0` the meditation score exceeds its cutoff 0.6,
yet the simple classifier does not return `high_meditation` (the maximum of
the four scores is `focus`, which fails its own 0.7 cutoff, so the code falls
through to the per-band comparison and returns `high_alpha`). -/
theorem C3_counterexample :
    ((13:ℚ)/20 > 3/5) ∧
      (MLAnalysis.mk (69/100) 0 (13/20) 0).meditation = (13:ℚ)/20 ∧
      Simple.getDominantPattern ⟨1/2, 0, 0, 0, 0⟩ ⟨69/100, 0, 13/20, 0⟩ ≠ "high_meditation" ∧
      Simple.getDominantPattern ⟨1/2, 0, 0, 0, 0⟩ ⟨69/100, 0, 13/20, 0⟩ = "high_alpha" := by
  have hpat : Simple.getDominantPattern ⟨1/2, 0, 0, 0, 0⟩ ⟨69/100, 0, 13/20, 0⟩ = "high_alpha" := by
    rw [Simple.getDominantPattern]
    have hmax : Simple.mlMax4 ⟨69/100, 0, 13/20, 0⟩ = 69/100 := by
      rw [Simple.mlMax4]
      norm_num [max_def]
    rw [hmax]
    norm_num
    rw [Simple.bandLoop]
    norm_num
    rw [Simple.bandLoop]
    norm_num
    rw [Simple.bandLoop]
    norm_num
    rw [Simple.bandLoop]
    norm_num
    rfl
  refine ⟨by norm_num, rfl, ?_, hpat⟩
  rw [hpat]
  decide

/-- Claim C3 (amended): the simple classifier returns `high_{mlState}` only
when that ML score equals the maximum of the four ML scores AND exceeds its
own cutoff (0.6 for meditation, 0.7 for focus/clear/dream), checked in the
order meditation, focus, clear, dream; in all other cases it falls back to
the per-band comparison over alpha, beta, gamma, theta with plain cutoff
0.25 and no activeness blending (earliest band strictly over the cutoff and
at least as large as every later band wins; otherwise `balanced`). -/
theorem C3_ml_priority_amended (bw : Brainwaves) (ml : MLAnalysis) :
    Simple.getDominantPattern bw ml =
      (if ml.meditation = Simple.mlMax4 ml ∧ ml.meditation > 3/5 then "high_meditation"
       else if ml.focus = Simple.mlMax4 ml ∧ ml.focus > 7/10 then "high_focus"
       else if ml.clear = Simple.mlMax4 ml ∧ ml.clear > 7/10 then "high_clear"
       else if ml.dream = Simple.mlMax4 ml ∧ ml.dream > 7/10 then "high_dream"
       else Simple.bandFallback bw) := by
  simp only [Simple.getDominantPattern, Simple.bandLoop_eq_bandFallback]

/-- Claim C4: `normalizeBrainwaves` maps every record of five non-negative
values with positive sum to a record whose five values sum to 1.0 within
1e-9 (here: exactly 1, hence within the bound), and returns an input whose
five values sum to exactly 0 unchanged. -/
theorem C4_normalize_invariant (rawValues : Brainwaves) :
    (0 ≤ rawValues.alpha → 0 ≤ rawValues.beta → 0 ≤ rawValues.gamma →
      0 ≤ rawValues.delta → 0 ≤ rawValues.theta → 0 < Rich.bandSum rawValues →
      |Rich.bandSum (Rich.normalizeBrainwaves rawValues) - 1| ≤ 1/1000000000) ∧
    (Rich.bandSum rawValues = 0 → Rich.normalizeBrainwaves rawValues = rawValues) := by
  constructor
  · intro _ _ _ _ _ hpos
    have hne : rawValues.alpha + rawValues.beta + rawValues.gamma +
        rawValues.delta + rawValues.theta ≠ 0 := by
      simp only [Rich.bandSum] at hpos
      linarith
    simp only [Rich.normalizeBrainwaves, Rich.bandSum, if_neg hne]
    rw [div_add_div_same, div_add_div_same, div_add_div_same, div_add_div_same,
      div_self hne]
    norm_num
  · intro hzero
    simp only [Rich.bandSum] at hzero
    simp only [Rich.normalizeBrainwaves, if_pos hzero]

/-- Witness for claim C4 at the concrete records `(1,1,1,1,1)` (positive sum)
and `(0,0,0,0,0)` (zero sum). -/
theorem C4_normalize_invariant_witness :
    |Rich.bandSum (Rich.normalizeBrainwaves ⟨1, 1, 1, 1, 1⟩) - 1| ≤ 1/1000000000 ∧
      Rich.normalizeBrainwaves ⟨0, 0, 0, 0, 0⟩ = ⟨0, 0, 0, 0, 0⟩ :=
  ⟨(C4_normalize_invariant ⟨1, 1, 1, 1, 1⟩).1 (by norm_num) (by norm_num) (by norm_num)
      (by norm_num) (by norm_num) (by norm_num [Rich.bandSum]),
    (C4_normalize_invariant ⟨0, 0, 0, 0, 0⟩).2 (by norm_num [Rich.bandSum])⟩

/-- Claim C7: `getActivenessState` buckets each value by `v ≥ 2/3` (active),
`1/3 ≤ v < 2/3` (clear), `v < 1/3` (meditation); it returns the bucket whose
fraction of samples is `≥ 2/3` when one exists, `generic` otherwise, and the
no-data sentinel `null` for a missing or empty array; in particular an array
of 10 values of which exactly 7 are `≥ 2/3` yields `active`. -/
theorem C7_activeness_state (arr : List ℚ) :
    (Rich.getActivenessState none = none) ∧
    (Rich.getActivenessState (some []) = none) ∧
    (arr ≠ [] → Rich.activeRatio arr ≥ 2/3 →
      Rich.getActivenessState (some arr) = some ("active")) ∧
    (arr ≠ [] → Rich.clearRatio arr ≥ 2/3 →
      Rich.getActivenessState (some arr) = some ("clear")) ∧
    (arr ≠ [] → Rich.meditationRatio arr ≥ 2/3 →
      Rich.getActivenessState (some arr) = some ("meditation")) ∧
    (arr ≠ [] → Rich.activeRatio arr < 2/3 → Rich.clearRatio arr < 2/3 →
      Rich.meditationRatio arr < 2/3 →
      Rich.getActivenessState (some arr) = some ("generic")) ∧
    (arr.length = 10 → arr.countP (fun v => decide ((2:ℚ)/3 ≤ v)) = 7 →
      Rich.getActivenessState (some arr) = some ("active")) := by
  refine ⟨rfl, rfl, ?_, ?_, ?_, ?_, ?_⟩
  · intro hne hA
    rw [Rich.getActivenessState_some arr hne, if_pos hA]
  · intro hne hC
    have hsum := Rich.ratio_sum arr hne
    have hM := Rich.meditationRatio_nonneg arr
    have hA : Rich.activeRatio arr < 2/3 := by linarith
    rw [Rich.getActivenessState_some arr hne, if_neg (not_le.mpr hA), if_pos hC]
  · intro hne hM
    have hsum := Rich.ratio_sum arr hne
    have hA0 := Rich.activeRatio_nonneg arr
    have hC0 := Rich.clearRatio_nonneg arr
    have hA : Rich.activeRatio arr < 2/3 := by linarith
    have hC : Rich.clearRatio arr < 2/3 := by linarith
    rw [Rich.getActivenessState_some arr hne, if_neg (not_le.mpr hA),
      if_neg (not_le.mpr hC), if_pos hM]
  · intro hne hA hC hM
    rw [Rich.getActivenessState_some arr hne, if_neg (not_le.mpr hA),
      if_neg (not_le.mpr hC), if_neg (not_le.mpr hM)]
  · intro hlen hcount
    have hne : arr ≠ [] := by
      intro hnil
      rw [hnil] at hlen
      exact absurd hlen (by norm_num)
    have hA : Rich.activeRatio arr ≥ 2/3 := by
      simp only [Rich.activeRatio, hcount, hlen]
      norm_num
    rw [Rich.getActivenessState_some arr hne, if_pos hA]

/-- Witness for claim C7 at the concrete array of ten values with exactly
seven of them `≥ 2/3`. -/
theorem C7_activeness_state_witness :
    Rich.getActivenessState (some [1, 1, 1, 1, 1, 1, 1, 0, 0, 0]) = some ("active") :=
  (C7_activeness_state [1, 1, 1, 1, 1, 1, 1, 0, 0, 0]).2.2.2.2.2.2
    (by simp)
    (by norm_num [List.countP_cons, List.countP_nil])

namespace Rich

/-- One step of the backwards scan of `removeRepeatedTail`
(src/unnamed/part_000 lines 934-941): at position `i`, do ALL arrays have the
same value as their previous entry?  (`dataArrays[key][i] !== dataArrays[key][i-1]`
breaks the inner loop; indices are in bounds at every call site, so `getD`'s
default is never consulted.) -/
def allRepeatAt (dataArrays : List (String × List ℚ)) (i : Nat) : Bool :=
  dataArrays.all fun p => decide (p.2.getD i 0 = p.2.getD (i - 1) 0)

/-- The `for (let i = minLength - 1; i > 0; i--)` scan of `removeRepeatedTail`
(src/unnamed/part_000 lines 932-949): counts consecutive all-repeated
positions from the top index downwards, stopping at the first failure
(`break`) or at index 0. -/
def trimCount (dataArrays : List (String × List ℚ)) : Nat → Nat
  | 0 => 0
  | i + 1 => if allRepeatAt dataArrays (i + 1) then trimCount dataArrays i + 1 else 0

/-- `minLength`: `Math.min` folded over the value lengths, starting from
`Infinity` (src/unnamed/part_000 lines 923-927); on a nonempty list this is
the minimum of the lengths (the empty case never reaches this computation). -/
def minLen : List Nat → Nat
  | [] => 0
  | n :: rest => rest.foldl Nat.min n

/-- `removeRepeatedTail(dataArrays)` of src/unnamed/part_000 (lines 912-962).
The JS object is modelled as an association list (string keys in insertion
order); the `Array.isArray` guard is vacuous in this typed model since every
value is a sequence.  `slice(0, -removeCount)` is `take (length - removeCount)`. -/
def removeRepeatedTail (dataArrays : List (String × List ℚ)) : List (String × List ℚ) :=
  if dataArrays.isEmpty then dataArrays
  else
    let minLength := minLen (dataArrays.map fun p => p.2.length)
    if minLength ≤ 1 then dataArrays
    else
      let removeCount := trimCount dataArrays (minLength - 1)
      if removeCount > 0 then
        dataArrays.map fun p => (p.1, p.2.take (p.2.length - removeCount))
      else dataArrays

theorem trimCount_le (m : List (String × List ℚ)) (i : Nat) : trimCount m i ≤ i := by
  induction i with
  | zero => exact le_refl 0
  | succ i ih =>
    rw [trimCount]
    split
    · omega
    · omega

theorem trimCount_break (m : List (String × List ℚ)) (i : Nat)
    (h : trimCount m i < i) : allRepeatAt m (i - trimCount m i) = false := by
  induction i with
  | zero => exact absurd h (by omega)
  | succ i ih =>
    by_cases hr : allRepeatAt m (i + 1) = true
    · rw [trimCount, if_pos hr] at h ⊢
      have hlt : trimCount m i < i := by omega
      have := ih hlt
      have harith : i + 1 - (trimCount m i + 1) = i - trimCount m i := by omega
      rw [harith]
      exact this
    · rw [trimCount, if_neg hr] at h ⊢
      simp only [Nat.sub_zero]
      exact Bool.eq_false_iff.mpr hr

theorem foldl_min_const (L : Nat) (ns : List Nat) (h : ∀ n ∈ ns, n = L) :
    ns.foldl Nat.min L = L := by
  induction ns with
  | nil => rfl
  | cons n rest ih =>
    rw [List.foldl_cons, h n (List.mem_cons_self _ _), show L.min L = L by simp [Nat.min_def]]
    exact ih fun q hq => h q (List.mem_cons_of_mem _ hq)

theorem minLen_const (m : List (String × List ℚ)) (L : Nat)
    (h : ∀ p ∈ m, p.2.length = L) (hne : m ≠ []) :
    minLen (m.map fun p => p.2.length) = L := by
  match m with
  | [] => exact absurd rfl hne
  | p :: rest =>
    rw [List.map_cons, minLen, h p (List.mem_cons_self _ _)]
    refine foldl_min_const L _ fun n hn => ?_
    obtain ⟨q, hq, rfl⟩ := List.mem_map.mp hn
    exact h q (List.mem_cons_of_mem _ hq)

theorem getD_take_of_lt (l : List ℚ) (n j : Nat) (h : j < n) :
    (l.take n).getD j 0 = l.getD j 0 := by
  simp only [List.getD_eq_getElem?_getD, List.getElem?_take, h, if_pos]

theorem allRepeatAt_map_take (m : List (String × List ℚ)) (c j : Nat)
    (hj : 1 ≤ j) (hjc : ∀ p ∈ m, j < p.2.length - c) :
    allRepeatAt (m.map fun p => (p.1, p.2.take (p.2.length - c))) j = allRepeatAt m j := by
  have : ∀ (a b : Bool), (a = true ↔ b = true) → a = b := by decide
  apply this
  simp only [allRepeatAt, List.all_eq_true, List.mem_map, decide_eq_true_eq]
  constructor
  · intro hall p hp
    have := hall ((fun p => (p.1, p.2.take (p.2.length - c))) p) ⟨p, hp, rfl⟩
    rwa [getD_take_of_lt _ _ _ (hjc p hp), getD_take_of_lt _ _ _ (by have := hjc p hp; omega)] at this
  · rintro hall q ⟨p, hp, rfl⟩
    rw [getD_take_of_lt _ _ _ (hjc p hp), getD_take_of_lt _ _ _ (by have := hjc p hp; omega)]
    exact hall p hp

/-- Claim C5: `removeRepeatedTail` is idempotent on every well-formed map of
equal-length numeric sequences. -/
theorem C5_removeRepeatedTail_idempotent (m : List (String × List ℚ)) (L : Nat)
    (h : ∀ p ∈ m, p.2.length = L) :
    removeRepeatedTail (removeRepeatedTail m) = removeRepeatedTail m := by
  rcases eq_or_ne m [] with rfl | hne
  · rfl
  · have hmin : minLen (m.map fun p => p.2.length) = L := minLen_const m L h hne
    have hempty : m.isEmpty = false := by
      simp [List.isEmpty_iff, hne]
    rcases le_or_lt L 1 with hL1 | hL1
    · have hself : removeRepeatedTail m = m := by
        rw [removeRepeatedTail, if_neg (by simp [hempty]), hmin, if_pos hL1]
      rw [hself, hself]
    · set c := trimCount m (L - 1) with hc
      have hcle : c ≤ L - 1 := trimCount_le m (L - 1)
      rcases Nat.eq_zero_or_pos c with hc0 | hcpos
      · have hself : removeRepeatedTail m = m := by
          rw [removeRepeatedTail, if_neg (by simp [hempty]), hmin, if_neg (by omega), ← hc,
            if_neg (by omega)]
        rw [hself, hself]
      · have hfirst : removeRepeatedTail m =
            m.map fun p => (p.1, p.2.take (p.2.length - c)) := by
          rw [removeRepeatedTail, if_neg (by simp [hempty]), hmin, if_neg (by omega), ← hc,
            if_pos (by omega)]
        rw [hfirst]
        set m' := m.map fun p => (p.1, p.2.take (p.2.length - c)) with hm'
        have hlen' : ∀ p ∈ m', p.2.length = L - c := by
          intro q hq
          rw [hm'] at hq
          obtain ⟨p, hp, rfl⟩ := List.mem_map.mp hq
          simp only [List.length_take, h p hp]
          omega
        have hne' : m' ≠ [] := by
          rw [hm']
          intro hnil
          exact hne (List.map_eq_nil_iff.mp hnil)
        have hempty' : m'.isEmpty = false := by
          simp [List.isEmpty_iff, hne']
        have hmin' : minLen (m'.map fun p => p.2.length) = L - c := minLen_const m' (L - c) hlen' hne'
        rcases le_or_lt (L - c) 1 with hLc1 | hLc1
        · rw [removeRepeatedTail, if_neg (by simp [hempty']), hmin', if_pos hLc1]
        · have hclt : c < L - 1 := by omega
          have hbreak : allRepeatAt m (L - 1 - c) = false := by
            have := trimCount_break m (L - 1) (by omega)
            rwa [← hc] at this
          have hrepeat' : allRepeatAt m' (L - 1 - c) = false := by
            rw [hm', allRepeatAt_map_take m c (L - 1 - c) (by omega)]
            · exact hbreak
            · intro p hp
              rw [h p hp]
              omega
          have htrim' : trimCount m' (L - c - 1) = 0 := by
            have hsucc : L - c - 1 = (L - c - 2) + 1 := by omega
            rw [hsucc, trimCount, if_neg]
            rw [show L - c - 2 + 1 = L - 1 - c by omega]
            simp [hrepeat']
          rw [removeRepeatedTail, if_neg (by simp [hempty']), hmin', if_neg (by omega), htrim',
            if_neg (by omega)]

/-- Witness for claim C5 at the concrete map `{a: [1,2,3,3,3], b: [5,6,7,7,7]}`
of two equal-length sequences. -/
theorem C5_removeRepeatedTail_idempotent_witness :
    removeRepeatedTail (removeRepeatedTail
        [("a", [1, 2, 3, 3, 3]), ("b", [5, 6, 7, 7, 7])]) =
      removeRepeatedTail [("a", [1, 2, 3, 3, 3]), ("b", [5, 6, 7, 7, 7])] :=
  C5_removeRepeatedTail_idempotent [("a", [1, 2, 3, 3, 3]), ("b", [5, 6, 7, 7, 7])] 5
    (by simp)

end Rich

namespace Rich

/-- One entry of the `brainwaveSpecs` table of `generateFrequencyWeightedWave`
(src/unnamed/part_000 lines 13-19): frequency range, center frequency and
number of harmonic components for one band. -/
structure WaveSpec where
  minHz : ℝ
  maxHz : ℝ
  centerHz : ℝ
  numWaves : Nat

/-- The `brainwaveSpecs` lookup (src/unnamed/part_000 lines 13-21): JS object
property access, `none` for an unknown band kind. -/
noncomputable def brainwaveSpecs (brainwaveType : String) : Option WaveSpec :=
  if brainwaveType = "delta" then some ⟨0.5, 4, 2.25, 7⟩
  else if brainwaveType = "theta" then some ⟨4, 8, 6, 13⟩
  else if brainwaveType = "alpha" then some ⟨8, 12, 10, 8⟩
  else if brainwaveType = "beta" then some ⟨12, 30, 21, 10⟩
  else if brainwaveType = "gamma" then some ⟨30, 100, 65, 2⟩
  else none

/-- One harmonic component `{freq, amplitude, phase}` (src/unnamed/part_000
lines 42-46). -/
structure WaveComponent where
  freq : ℝ
  amplitude : ℝ
  phase : ℝ

/-- The component-generation loop of `generateFrequencyWeightedWave`
(src/unnamed/part_000 lines 25-47). -/
noncomputable def waveComponents (spec : WaveSpec) (amplitude : ℝ) : List WaveComponent :=
  (List.range spec.numWaves).map fun i =>
    let freq := spec.minHz + (spec.maxHz - spec.minHz) * (((i : ℝ) + 1) / ((spec.numWaves : ℝ) + 2))
    let distanceFromCenter := |freq - spec.centerHz|
    let maxDistance := max (spec.centerHz - spec.minHz) (spec.maxHz - spec.centerHz)
    let weight := 1 - (distanceFromCenter / maxDistance) * 0.3
    let visualFreq := freq / 20
    let positionRatio := ((i : ℝ) + 1) / ((spec.numWaves : ℝ) + 2)
    let phaseOffset := (i : ℝ) + positionRatio * Real.pi * 2
    ⟨visualFreq, weight * amplitude, phaseOffset⟩

/-- One raw sample of the summed sine components (src/unnamed/part_000
lines 52-62): `y += sin(t*freq + phase) * amplitude` over all components. -/
noncomputable def rawWaveAt (comps : List WaveComponent) (width : Nat) (x : Nat) : ℝ :=
  let t := ((x : ℝ) / (width : ℝ)) * Real.pi * 8
  (comps.map fun c => Real.sin (t * c.freq + c.phase) * c.amplitude).sum

/-- `generateFrequencyWeightedWave(brainwaveType, amplitude, width, height)`
of src/unnamed/part_000 (lines 7-77), modelled up to the sample points
`(x, y)` that the source then joins into the SVG path string
`"M{x0},{y0} L{x1},{y1} ..."` (string assembly is presentation only).
An unknown band returns the flat two-point line `M0,centerY L{width},centerY`;
otherwise the raw sums are de-biased by their mean, scaled by `height/3`,
centered on `height/2` and clamped into `[1, height-1]`. -/
noncomputable def generateFrequencyWeightedWave (brainwaveType : String) (amplitude : ℝ)
    (width : Nat) (height : ℝ) : List (Nat × ℝ) :=
  let centerY := height / 2
  let maxAmplitude := height / 3
  match brainwaveSpecs brainwaveType with
  | none => [(0, centerY), (width, centerY)]
  | some spec =>
    let waveComps := waveComponents spec amplitude
    let rawPoints := (List.range width).map fun x => rawWaveAt waveComps width x
    let mean := rawPoints.sum / (rawPoints.length : ℝ)
    (List.range width).map fun x =>
      (x, max 1 (min (height - 1) (centerY - ((rawPoints.getD x 0 - mean) * maxAmplitude))))

end Rich

/-- Claim C9: the waveform synthesizer called for band `gamma` with amplitude
1.0, width 80 and height 60 produces exactly 80 sample points whose x
coordinates are strictly increasing from 0 to 79 (the x projection is exactly
`0, 1, ..., 79`) and whose y coordinates all lie in `[1, 59] = [1, height-1]`. -/
theorem C9_gamma_wave_points :
    (Rich.generateFrequencyWeightedWave "gamma" 1 80 60).map Prod.fst = List.range 80 ∧
      List.Forall (fun p => 1 ≤ p.2 ∧ p.2 ≤ 59)
        (Rich.generateFrequencyWeightedWave "gamma" 1 80 60) := by
  have hspec : Rich.brainwaveSpecs "gamma" = some ⟨30, 100, 65, 2⟩ := by
    rw [Rich.brainwaveSpecs]
    simp
  constructor
  · simp only [Rich.generateFrequencyWeightedWave, hspec, List.map_map]
    exact List.map_id _
  · rw [List.forall_iff_forall_mem]
    intro p hp
    simp only [Rich.generateFrequencyWeightedWave, hspec, List.mem_map] at hp
    obtain ⟨x, hx, rfl⟩ := hp
    constructor
    · exact le_max_left _ _
    · refine max_le (by norm_num) ?_
      refine le_trans (min_le_left _ _) ?_
      norm_num

namespace Rich

/-- `const weighting_power = 0.5` (src/unnamed/part_000 line 3). -/
noncomputable def weighting_power : ℝ := 0.5

/-- `const dominant_cutoff = 0.225` (src/unnamed/part_000 line 4). -/
noncomputable def dominant_cutoff : ℝ := 0.225

/-- The band record of the richer page's classifier, over `ℝ` because the
frequency weighting uses `Math.pow(base, 0.5)` (irrational weights). -/
structure BrainwavesR where
  alpha : ℝ
  beta : ℝ
  gamma : ℝ
  delta : ℝ
  theta : ℝ

/-- The frequency weighting and re-normalization steps of the richer
`getDominantPattern` (src/unnamed/part_000 lines 1199-1213): multiply each
band by its representative frequency raised to `weighting_power`
(`Math.pow` on a positive base is real rpow), then divide each by the total. -/
noncomputable def weightedProps (brainwaves : BrainwavesR) : BrainwavesR :=
  let alpha := brainwaves.alpha * (((8:ℝ) + 12) / 2) ^ weighting_power
  let beta := brainwaves.beta * (((12:ℝ) + 30) / 2) ^ weighting_power
  let gamma := brainwaves.gamma * (30:ℝ) ^ weighting_power
  let delta := brainwaves.delta * (0.5:ℝ) ^ weighting_power
  let theta := brainwaves.theta * (((4:ℝ) + 8) / 2) ^ weighting_power
  let total := alpha + beta + gamma + delta + theta
  ⟨alpha / total, beta / total, gamma / total, delta / total, theta / total⟩

/-- The running-maximum loop of the richer `getDominantPattern`
(src/unnamed/part_000 lines 1218-1226): champion starts as `null`
(`Option.none`), update whenever `value > maxValue && value > dominant_cutoff`. -/
noncomputable def bandLoopR : List (String × ℝ) → Option String → ℝ → Option String
  | [], maxWave, _ => maxWave
  | (wave, value) :: rest, maxWave, maxValue =>
    if value > maxValue ∧ value > dominant_cutoff then bandLoopR rest (some wave) value
    else bandLoopR rest maxWave maxValue

/-- `getDominantPattern(brainwaves, mlAnalysis, activenessArray)` of
src/unnamed/part_000 (lines 1194-1240): weight and re-normalize the bands,
scan `{alpha, beta, gamma, theta, delta}` in insertion order for the dominant
wave, then resolve the label against the activeness state (`mlAnalysis` is
accepted but never read by this variant). -/
noncomputable def getDominantPattern (brainwaves : BrainwavesR) (mlAnalysis : MLAnalysis)
    (activenessArray : Option (List ℚ)) : String :=
  let activenessState := getActivenessState activenessArray
  let w := weightedProps brainwaves
  match bandLoopR [("alpha", w.alpha), ("beta", w.beta), ("gamma", w.gamma),
      ("theta", w.theta), ("delta", w.delta)] none 0 with
  | none => "balanced"
  | some maxWave =>
    match activenessState with
    | none => maxWave ++ "_generic"
    | some st => maxWave ++ "_" ++ st

/-- Specification-side: the maximum of the five weighted proportions. -/
noncomputable def maxWeighted (w : BrainwavesR) : ℝ :=
  max (max (max (max w.alpha w.beta) w.gamma) w.theta) w.delta

/-- Specification-side: the suffix the richer classifier appends after the
dominant band name (`_generic` without activeness data, `_{state}` with it). -/
def activenessSuffix : Option String → String
  | none => "_generic"
  | some st => "_" ++ st

theorem bandLoopR_no_update (l : List (String × ℝ)) (mw : Option String) (mv : ℝ)
    (h : ∀ p ∈ l, ¬(p.2 > mv ∧ p.2 > dominant_cutoff)) : bandLoopR l mw mv = mw := by
  induction l with
  | nil => rfl
  | cons p rest ih =>
    obtain ⟨w, v⟩ := p
    simp only [bandLoopR]
    rw [if_neg (h _ (List.mem_cons_self _ _))]
    exact ih fun q hq => h q (List.mem_cons_of_mem _ hq)

theorem bandLoopR_accept (w : String) (v : ℝ) (rest : List (String × ℝ))
    (mw : Option String) (mv : ℝ) (h1 : v > mv) (h2 : v > dominant_cutoff) :
    bandLoopR ((w, v) :: rest) mw mv = bandLoopR rest (some w) v := by
  simp only [bandLoopR]
  rw [if_pos ⟨h1, h2⟩]

theorem bandLoopR_skip (w : String) (v : ℝ) (rest : List (String × ℝ))
    (mw : Option String) (mv : ℝ) (h : ¬(v > mv ∧ v > dominant_cutoff)) :
    bandLoopR ((w, v) :: rest) mw mv = bandLoopR rest mw mv := by
  simp only [bandLoopR]
  rw [if_neg h]

theorem bandLoopR_max (l : List (String × ℝ)) (mw : Option String) (mv : ℝ)
    (hex : ∃ p ∈ l, p.2 > mv ∧ p.2 > dominant_cutoff) :
    ∃ q ∈ l, bandLoopR l mw mv = some q.1 ∧ (∀ p ∈ l, p.2 ≤ q.2) ∧
      q.2 > dominant_cutoff ∧ q.2 > mv := by
  induction l generalizing mw mv with
  | nil =>
    obtain ⟨p, hp, -⟩ := hex
    exact absurd hp (List.not_mem_nil p)
  | cons hd rest ih =>
    obtain ⟨w, v⟩ := hd
    by_cases hacc : v > mv ∧ v > dominant_cutoff
    · rw [bandLoopR_accept _ _ _ _ _ hacc.1 hacc.2]
      by_cases hex' : ∃ p ∈ rest, p.2 > v ∧ p.2 > dominant_cutoff
      · obtain ⟨q, hq, hres, hbound, hc, hv⟩ := ih (some w) v hex'
        refine ⟨q, List.mem_cons_of_mem _ hq, hres, ?_, hc, lt_trans hacc.1 hv⟩
        intro p hp
        rcases List.mem_cons.mp hp with rfl | hp'
        · exact le_of_lt hv
        · exact hbound p hp'
      · push_neg at hex'
        have hstay : bandLoopR rest (some w) v = some w :=
          bandLoopR_no_update rest (some w) v fun p hp => by
            rintro ⟨h1, h2⟩
            exact absurd (hex' p hp h1) (not_le.mpr h2)
        refine ⟨(w, v), List.mem_cons_self _ _, hstay, ?_, hacc.2, hacc.1⟩
        intro p hp
        rcases List.mem_cons.mp hp with rfl | hp'
        · exact le_refl _
        · by_contra hlt
          push_neg at hlt
          exact absurd (hex' p hp' hlt) (not_le.mpr (lt_trans hacc.2 hlt))
    · rw [bandLoopR_skip _ _ _ _ _ hacc]
      have hex'' : ∃ p ∈ rest, p.2 > mv ∧ p.2 > dominant_cutoff := by
        obtain ⟨p, hp, hcond⟩ := hex
        rcases List.mem_cons.mp hp with rfl | hp'
        · exact absurd hcond hacc
        · exact ⟨p, hp', hcond⟩
      obtain ⟨q, hq, hres, hbound, hc, hv⟩ := ih mw mv hex''
      refine ⟨q, List.mem_cons_of_mem _ hq, hres, ?_, hc, hv⟩
      intro p hp
      rcases List.mem_cons.mp hp with rfl | hp'
      · rcases not_and_or.mp hacc with hmv' | hct
        · exact le_of_lt (lt_of_le_of_lt (not_lt.mp hmv') hv)
        · exact le_of_lt (lt_of_le_of_lt (not_lt.mp hct) hc)
      · exact hbound p hp'

theorem le_maxWeighted (w : BrainwavesR) :
    w.alpha ≤ maxWeighted w ∧ w.beta ≤ maxWeighted w ∧ w.gamma ≤ maxWeighted w ∧
      w.theta ≤ maxWeighted w ∧ w.delta ≤ maxWeighted w := by
  unfold maxWeighted
  refine ⟨?_, ?_, ?_, ?_, ?_⟩
  · exact le_max_of_le_left (le_max_of_le_left (le_max_of_le_left (le_max_left _ _)))
  · exact le_max_of_le_left (le_max_of_le_left (le_max_of_le_left (le_max_right _ _)))
  · exact le_max_of_le_left (le_max_of_le_left (le_max_right _ _))
  · exact le_max_of_le_left (le_max_right _ _)
  · exact le_max_right _ _

theorem maxWeighted_attained (w : BrainwavesR) :
    maxWeighted w = w.alpha ∨ maxWeighted w = w.beta ∨ maxWeighted w = w.gamma ∨
      maxWeighted w = w.theta ∨ maxWeighted w = w.delta := by
  unfold maxWeighted
  rcases max_choice (max (max (max w.alpha w.beta) w.gamma) w.theta) w.delta with h4 | h4
  · rw [h4]
    rcases max_choice (max (max w.alpha w.beta) w.gamma) w.theta with h3 | h3
    · rw [h3]
      rcases max_choice (max w.alpha w.beta) w.gamma with h2 | h2
      · rw [h2]
        rcases max_choice w.alpha w.beta with h1 | h1
        · exact Or.inl h1
        · exact Or.inr (Or.inl h1)
      · exact Or.inr (Or.inr (Or.inl h2))
    · exact Or.inr (Or.inr (Or.inr (Or.inl h3)))
  · exact Or.inr (Or.inr (Or.inr (Or.inr h4)))

theorem weightedProps_closed (a b c d e : ℝ) (h : a + b + c + d + e = 1) :
    weightedProps ⟨a / (((8:ℝ) + 12) / 2) ^ weighting_power,
        b / (((12:ℝ) + 30) / 2) ^ weighting_power,
        c / ((30:ℝ)) ^ weighting_power,
        d / ((0.5:ℝ)) ^ weighting_power,
        e / (((4:ℝ) + 8) / 2) ^ weighting_power⟩ = ⟨a, b, c, d, e⟩ := by
  have h1 : (((8:ℝ) + 12) / 2) ^ weighting_power ≠ 0 :=
    ne_of_gt (Real.rpow_pos_of_pos (by norm_num) _)
  have h2 : (((12:ℝ) + 30) / 2) ^ weighting_power ≠ 0 :=
    ne_of_gt (Real.rpow_pos_of_pos (by norm_num) _)
  have h3 : ((30:ℝ)) ^ weighting_power ≠ 0 :=
    ne_of_gt (Real.rpow_pos_of_pos (by norm_num) _)
  have h4 : ((0.5:ℝ)) ^ weighting_power ≠ 0 :=
    ne_of_gt (Real.rpow_pos_of_pos (by norm_num) _)
  have h5 : (((4:ℝ) + 8) / 2) ^ weighting_power ≠ 0 :=
    ne_of_gt (Real.rpow_pos_of_pos (by norm_num) _)
  simp only [weightedProps, div_mul_cancel₀ _ h1, div_mul_cancel₀ _ h2,
    div_mul_cancel₀ _ h3, div_mul_cancel₀ _ h4, div_mul_cancel₀ _ h5, h, div_one]

end Rich

/-- Claim C6: in the richer variant's classifier a band counts as dominant
only when its frequency-weighted, re-normalized proportion strictly exceeds
the cutoff 0.225: whenever the maximum weighted proportion equals exactly
0.225 the result is the sentinel `balanced`, and whenever it equals 0.2251
(other conditions unchanged) the result is the label of a band attaining
that maximum, suffixed with the activeness state. -/
theorem C6_dominant_cutoff_boundary (bw : Rich.BrainwavesR) (ml : MLAnalysis)
    (act : Option (List ℚ)) :
    (Rich.maxWeighted (Rich.weightedProps bw) = 0.225 →
      Rich.getDominantPattern bw ml act = "balanced") ∧
    (Rich.maxWeighted (Rich.weightedProps bw) = 0.2251 →
      ∃ wave value,
        (wave, value) ∈ [("alpha", (Rich.weightedProps bw).alpha),
          ("beta", (Rich.weightedProps bw).beta), ("gamma", (Rich.weightedProps bw).gamma),
          ("theta", (Rich.weightedProps bw).theta), ("delta", (Rich.weightedProps bw).delta)] ∧
        value = 0.2251 ∧
        Rich.getDominantPattern bw ml act =
          wave ++ Rich.activenessSuffix (Rich.getActivenessState act)) := by
  obtain ⟨hA, hB, hG, hT, hD⟩ := Rich.le_maxWeighted (Rich.weightedProps bw)
  constructor
  · intro h
    have hnone : Rich.bandLoopR [("alpha", (Rich.weightedProps bw).alpha),
        ("beta", (Rich.weightedProps bw).beta), ("gamma", (Rich.weightedProps bw).gamma),
        ("theta", (Rich.weightedProps bw).theta), ("delta", (Rich.weightedProps bw).delta)]
        none 0 = none := by
      refine Rich.bandLoopR_no_update _ _ _ fun p hp => ?_
      rintro ⟨-, hgt⟩
      simp only [Rich.dominant_cutoff] at hgt
      simp only [List.mem_cons, List.not_mem_nil, or_false] at hp
      rcases hp with rfl | rfl | rfl | rfl | rfl <;> simp only at hgt <;> linarith
    simp only [Rich.getDominantPattern, hnone]
  · intro h
    have hex : ∃ p ∈ [("alpha", (Rich.weightedProps bw).alpha),
        ("beta", (Rich.weightedProps bw).beta), ("gamma", (Rich.weightedProps bw).gamma),
        ("theta", (Rich.weightedProps bw).theta), ("delta", (Rich.weightedProps bw).delta)],
        p.2 > 0 ∧ p.2 > Rich.dominant_cutoff := by
      have hcond : ∀ x : ℝ, x = Rich.maxWeighted (Rich.weightedProps bw) →
          x > 0 ∧ x > Rich.dominant_cutoff := by
        intro x hx
        rw [hx, h]
        simp only [Rich.dominant_cutoff]
        norm_num
      rcases Rich.maxWeighted_attained (Rich.weightedProps bw) with h1 | h1 | h1 | h1 | h1
      · exact ⟨("alpha", (Rich.weightedProps bw).alpha), by simp, hcond _ h1.symm⟩
      · refine ⟨("beta", (Rich.weightedProps bw).beta), by simp, hcond _ h1.symm⟩
      · refine ⟨("gamma", (Rich.weightedProps bw).gamma), by simp, hcond _ h1.symm⟩
      · refine ⟨("theta", (Rich.weightedProps bw).theta), by simp, hcond _ h1.symm⟩
      · refine ⟨("delta", (Rich.weightedProps bw).delta), by simp, hcond _ h1.symm⟩
    obtain ⟨q, hq, hres, hbound, hc, hv⟩ := Rich.bandLoopR_max _ none 0 hex
    have hqle : q.2 ≤ Rich.maxWeighted (Rich.weightedProps bw) := by
      simp only [List.mem_cons, List.not_mem_nil, or_false] at hq
      rcases hq with rfl | rfl | rfl | rfl | rfl <;> assumption
    have hqge : Rich.maxWeighted (Rich.weightedProps bw) ≤ q.2 := by
      rcases Rich.maxWeighted_attained (Rich.weightedProps bw) with h1 | h1 | h1 | h1 | h1 <;>
        rw [h1]
      · exact hbound ("alpha", (Rich.weightedProps bw).alpha) (by simp)
      · exact hbound ("beta", (Rich.weightedProps bw).beta) (by simp)
      · exact hbound ("gamma", (Rich.weightedProps bw).gamma) (by simp)
      · exact hbound ("theta", (Rich.weightedProps bw).theta) (by simp)
      · exact hbound ("delta", (Rich.weightedProps bw).delta) (by simp)
    have hqmax : q.2 = 0.2251 := by
      rw [← h]
      exact le_antisymm hqle hqge
    refine ⟨q.1, q.2, ?_, hqmax, ?_⟩
    · exact Prod.mk.eta ▸ hq
    · simp only [Rich.getDominantPattern, hres]
      cases hact : Rich.getActivenessState act <;>
        simp [Rich.activenessSuffix, hact, String.append_assoc]

namespace Rich

/-- A concrete band record whose weighted, re-normalized proportions are
`(9/40, 9/40, 9/40, 1/10, 9/40)`, so the maximum weighted proportion is
exactly the cutoff 0.225. -/
noncomputable def boundaryAtCutoff : BrainwavesR :=
  ⟨(9/40) / (((8:ℝ) + 12) / 2) ^ weighting_power,
    (9/40) / (((12:ℝ) + 30) / 2) ^ weighting_power,
    (9/40) / ((30:ℝ)) ^ weighting_power,
    (1/10) / ((0.5:ℝ)) ^ weighting_power,
    (9/40) / (((4:ℝ) + 8) / 2) ^ weighting_power⟩

/-- A concrete band record whose weighted, re-normalized proportions are
`(2251/10000, 7749/40000, 7749/40000, 7749/40000, 7749/40000)`, so the
maximum weighted proportion is exactly 0.2251. -/
noncomputable def boundaryAboveCutoff : BrainwavesR :=
  ⟨(2251/10000) / (((8:ℝ) + 12) / 2) ^ weighting_power,
    (7749/40000) / (((12:ℝ) + 30) / 2) ^ weighting_power,
    (7749/40000) / ((30:ℝ)) ^ weighting_power,
    (7749/40000) / ((0.5:ℝ)) ^ weighting_power,
    (7749/40000) / (((4:ℝ) + 8) / 2) ^ weighting_power⟩

theorem weightedProps_boundaryAtCutoff :
    weightedProps boundaryAtCutoff = ⟨9/40, 9/40, 9/40, 1/10, 9/40⟩ :=
  weightedProps_closed (9/40) (9/40) (9/40) (1/10) (9/40) (by norm_num)

theorem weightedProps_boundaryAboveCutoff :
    weightedProps boundaryAboveCutoff =
      ⟨2251/10000, 7749/40000, 7749/40000, 7749/40000, 7749/40000⟩ :=
  weightedProps_closed (2251/10000) (7749/40000) (7749/40000) (7749/40000) (7749/40000)
    (by norm_num)

end Rich

/-- Witness for claim C6 at the two concrete band records sitting exactly at
and just above the dominant cutoff. -/
theorem C6_dominant_cutoff_boundary_witness :
    Rich.getDominantPattern Rich.boundaryAtCutoff ⟨0, 0, 0, 0⟩ none = "balanced" ∧
      (∃ wave value,
        (wave, value) ∈ [("alpha", (Rich.weightedProps Rich.boundaryAboveCutoff).alpha),
          ("beta", (Rich.weightedProps Rich.boundaryAboveCutoff).beta),
          ("gamma", (Rich.weightedProps Rich.boundaryAboveCutoff).gamma),
          ("theta", (Rich.weightedProps Rich.boundaryAboveCutoff).theta),
          ("delta", (Rich.weightedProps Rich.boundaryAboveCutoff).delta)] ∧
        value = 0.2251 ∧
        Rich.getDominantPattern Rich.boundaryAboveCutoff ⟨0, 0, 0, 0⟩ none =
          wave ++ Rich.activenessSuffix (Rich.getActivenessState none)) :=
  ⟨(C6_dominant_cutoff_boundary Rich.boundaryAtCutoff ⟨0, 0, 0, 0⟩ none).1
      (by rw [Rich.weightedProps_boundaryAtCutoff]
          norm_num [Rich.maxWeighted, max_def]),
    (C6_dominant_cutoff_boundary Rich.boundaryAboveCutoff ⟨0, 0, 0, 0⟩ none).2
      (by rw [Rich.weightedProps_boundaryAboveCutoff]
          norm_num [Rich.maxWeighted, max_def])⟩

namespace Rich

/-- The `balanced` entry of the fixed message bank (src/unnamed/part_000
lines 1142-1149), also the fallback list for unknown labels. -/
def balancedFortunes : List String := [
  "All levels of consciousness work in harmony to create perfect understanding.",
  "Your integrated awareness brings balanced perspective to every situation.",
  "Mind, body, and spirit align to manifest your highest potential.",
  "The symphony of your being plays in perfect harmony. Each instrument serves the whole.",
  "Like a master conductor, you orchestrate all aspects of awareness into sublime unity.",
  "In this moment of equilibrium, you access the wisdom of all states at once."]

/-- The fixed message bank `const fortunes = {...}` of the richer page
(src/unnamed/part_000 lines 970-1150), as an association list in the
source's declaration order (apostrophes written as `\x27`). -/
def fortunes : List (String × List String) := [
  ("alpha_active", [
    "Your relaxed focus brings sharp clarity to every task. Productive calm is your superpower.",
    "Alert yet at peace, you navigate complexity with effortless precision.",
    "Calm engagement unlocks creative problem-solving. Trust this balanced energy.",
    "Gentle attention achieves what force cannot. Your steady presence opens all doors.",
    "The art of relaxed concentration transforms ordinary moments into opportunities.",
    "Peaceful awareness meets purposeful action. You master the balance few achieve."
  ]),
  ("alpha_clear", [
    "Your relaxed mind opens to creative possibilities. Trust the calm clarity within.",
    "In stillness, solutions emerge naturally. Let your awareness guide you.",
    "Creative energy flows when the mind is at peace. Embrace this moment.",
    "Tranquil waters reflect the sky perfectly. Your calm mind mirrors wisdom.",
    "Serenity becomes the canvas upon which inspiration paints its masterpiece.",
    "Rest is not idleness—it is the space where your greatest ideas take form."
  ]),
  ("alpha_meditation", [
    "Deep relaxation meets inner knowing. Your peaceful mind touches profound wisdom.",
    "In meditative flow, creativity and tranquility become one.",
    "Serene awareness opens doorways to your most authentic insights.",
    "The silence between thoughts holds secrets the noise never reveals.",
    "In profound rest, your soul remembers what your mind forgot.",
    "Peace deepens into revelation. You float in the ocean of consciousness itself."
  ]),
  ("alpha_generic", [
    "Calm creativity flows through your consciousness.",
    "Your relaxed awareness moves with natural grace.",
    "Peace and possibility dance together in your mind.",
    "Gentle knowing guides you through the day. Trust the quiet voice.",
    "Your inner stillness radiates outward, touching all you encounter.",
    "Relaxation is not weakness—it is the power of water that shapes stone."
  ]),
  ("beta_active", [
    "Your active mind cuts through complexity with precision and focus.",
    "Problem-solving comes naturally when your awareness is sharp and engaged.",
    "Mental agility leads to breakthrough moments. Stay alert to opportunities.",
    "Lightning-quick perception illuminates what others overlook. Strike while the iron glows.",
    "Your razor-sharp attention carves pathways through impossible terrain.",
    "Dynamic thinking meets determined action. The world bends to your clarity."
  ]),
  ("beta_clear", [
    "Focused clarity brings elegant solutions to complex challenges.",
    "Your alert yet calm mind sees patterns others miss.",
    "Balanced thinking transforms obstacles into stepping stones.",
    "Poised awareness cuts through confusion like a blade through silk.",
    "Steady observation reveals the hidden order within apparent chaos.",
    "Your composed attention finds the thread that unravels every knot."
  ]),
  ("beta_meditation", [
    "Active consciousness meets inner stillness. Rare insight emerges from this union.",
    "Your engaged mind discovers peace within motion—a paradox that reveals truth.",
    "Alert meditation unlocks wisdom hidden in the dance of thought and silence.",
    "The eye of the hurricane: perfect calm surrounded by dynamic force.",
    "Moving meditation reveals truths that sitting never could. Walk the razor\x27s edge.",
    "Stillness within action—the warrior\x27s secret, the sage\x27s paradox, your gift today."
  ]),
  ("beta_generic", [
    "Sharp clarity energizes your thinking.",
    "Your active awareness navigates the world with purpose.",
    "Mental energy flows through channels of focused intention.",
    "Quick thinking opens doors before they close. Your timing is impeccable.",
    "Engaged perception transforms the mundane into the meaningful.",
    "Your wakeful mind dances with reality, leading when it must, following when it should."
  ]),
  ("gamma_active", [
    "Your heightened mind makes connections others cannot see.",
    "Peak awareness transforms complexity into crystalline understanding.",
    "Hyperconnected consciousness breaks through to revolutionary insight.",
    "Synapses fire in symphonic unity. You perceive the web that connects all things.",
    "Your accelerated awareness collapses time—past, present, future merge into now.",
    "Neural lightning reveals the invisible architecture underlying visible reality."
  ]),
  ("gamma_clear", [
    "Expanded awareness meets serene clarity. Profound patterns reveal themselves.",
    "Your heightened perception sees truth with calm precision.",
    "Peak consciousness flows through open channels of understanding.",
    "The universe whispers its secrets to minds like yours—vast yet focused.",
    "Elevated sight meets tranquil heart. You see infinity without losing yourself.",
    "Crystalline awareness refracts reality into its component truths."
  ]),
  ("gamma_meditation", [
    "Transcendent awareness emerges from the depths. You touch universal knowing.",
    "The rarest state opens—pure consciousness witnessing itself.",
    "In heightened stillness, all boundaries dissolve into infinite awareness.",
    "You stand at the threshold where self dissolves into everything.",
    "Peak experience meets deepest surrender. The cosmos recognizes itself through you.",
    "In this moment, you are both the observer and the observed—unity realized."
  ]),
  ("gamma_generic", [
    "Insight emerges from the synthesis of ideas. Trust your expanded awareness.",
    "The patterns of understanding reveal themselves to your awakened consciousness.",
    "Your heightened mind perceives connections across all dimensions.",
    "Quantum leaps of understanding occur when perception reaches critical velocity.",
    "Your consciousness operates at frequencies most never access. Use this gift wisely.",
    "The veil between seen and unseen grows transparent to your elevated sight."
  ]),
  ("delta_active", [
    "Deep processing meets outward engagement. Hidden wisdom emerges into action.",
    "Your unconscious mind works while you move—transformation in motion.",
    "Profound change flows beneath active awareness. Trust the deep currents.",
    "Primordial power rises through your actions. Ancient knowing guides modern doing.",
    "The depths animate your surface. You move with unconscious grace.",
    "Root wisdom flows into branch and leaf. Your actions carry primordial truth."
  ]),
  ("delta_clear", [
    "Your unconscious mind processes profound transformations with gentle clarity.",
    "Deep wisdom surfaces into conscious awareness. Trust what rises from below.",
    "The depths speak in whispers that your calm mind can finally hear.",
    "What stirs in the abyss seeks the light. Welcome these visitors from below.",
    "The slow work of the depths finally reaches the surface. Receive these gifts.",
    "Ancient currents become conscious thoughts. The old ways speak in new voices."
  ]),
  ("delta_meditation", [
    "In trance-like depths, your deepest wisdom emerges from shadow into light.",
    "The gateway to archetypal wisdom and healing opens before you.",
    "Your consciousness touches the deepest waters where all things begin.",
    "You descend to the source of all streams. Drink deeply from the first spring.",
    "The cave at the bottom of your being holds treasures beyond price.",
    "In the womb of consciousness, transformation gestates in perfect darkness."
  ]),
  ("delta_generic", [
    "Deep currents of change flow beneath conscious awareness. Allow the process.",
    "Your unconscious mind weaves transformation in the hidden depths.",
    "You journey to places beyond ordinary knowing.",
    "The roots grow strong in darkness. Trust what you cannot yet see.",
    "Invisible work proceeds in the depths. The harvest comes in its season.",
    "What sleeps beneath will wake in time. The depths are never truly still."
  ]),
  ("theta_active", [
    "Subconscious creativity meets focused action. Innovation flows freely.",
    "Your intuitive mind engages with the world—dreams become reality.",
    "Active imagination transforms vision into tangible form.",
    "The dreaming mind sculpts waking reality. Your visions take physical form.",
    "Inspiration drives your hands today. The muse and the maker are one.",
    "Creative fire burns bright in the forge of action. You birth the impossible."
  ]),
  ("theta_clear", [
    "Your subconscious mind weaves creativity and intuition into new forms.",
    "Meditative clarity reveals the hidden connections between all things.",
    "Insight flows from deep waters into the light of understanding.",
    "The twilight mind sees what daylight obscures. Trust your sideways knowing.",
    "Half-dreaming wisdom clarifies what sharp thinking missed. Let soft focus reveal.",
    "The boundary between imagination and perception blurs—here truth emerges."
  ]),
  ("theta_meditation", [
    "The realm of visions and symbolic truth opens before you.",
    "Your subconscious unfolds like a lotus, revealing layer upon layer of meaning.",
    "In this liminal space, your mind creates bridges between worlds.",
    "You walk between waking and sleeping, knowing and unknowing, form and void.",
    "The dream world and waking world recognize no border today. You are the bridge.",
    "Symbolic language speaks louder than words. Your soul reads the signs."
  ]),
  ("theta_generic", [
    "Subconscious wisdom flows through your awareness.",
    "Your intuitive mind perceives truths beyond logic.",
    "Messages arrive from the realm of dreams.",
    "The twilight realm whispers insights the daylight mind cannot grasp.",
    "Your inner vision sees further than your outer eyes. Trust the images.",
    "Creativity stirs in the half-light of consciousness. Feed it and watch it grow."
  ]),
  ("balanced", balancedFortunes)]

/-- `Math.round(x)` on an exact rational: round half toward positive
infinity, i.e. `⌊x + 1/2⌋`. -/
def jsRound (q : ℚ) : ℤ := ⌊q + 1/2⌋

/-- The JavaScript `%` operator on integers: the remainder of the
truncating division, carrying the sign of the dividend. -/
def jsRem (a b : ℤ) : ℤ := Int.tmod a b

/-- Specification-side: the deterministic seed
`round(1000*alpha + 2000*beta + 3000*gamma + 4000*delta + 5000*theta + 8000*meditation)`
(the focus/clear/dream terms are commented out in the source). -/
def fortuneSeed (brainwaves : Brainwaves) (mlAnalysis : MLAnalysis) : ℤ :=
  jsRound (brainwaves.alpha * 1000 + brainwaves.beta * 2000 +
    brainwaves.gamma * 3000 + brainwaves.delta * 4000 + brainwaves.theta * 5000 +
    mlAnalysis.meditation * 8000)

/-- `getRandomFortune(category, brainwaves, mlAnalysis)` of
src/unnamed/part_000 (lines 1242-1261): look the label up in the message
bank (`|| fortunes.balanced` for unknown labels, every list is nonempty),
seed from the band/meditation values, index with JS `%`; a negative index
reads an absent array slot, i.e. yields `undefined` (`none`). -/
def getRandomFortune (category : String) (brainwaves : Brainwaves)
    (mlAnalysis : MLAnalysis) : Option String :=
  let categoryFortunes := (List.lookup category fortunes).getD balancedFortunes
  let seed : ℤ := jsRound (brainwaves.alpha * 1000 + brainwaves.beta * 2000 +
    brainwaves.gamma * 3000 + brainwaves.delta * 4000 + brainwaves.theta * 5000 +
    mlAnalysis.meditation * 8000)
  let index := jsRem seed (categoryFortunes.length : ℤ)
  if 0 ≤ index then categoryFortunes.get? index.toNat else none

end Rich

/-- Claim C8: `getRandomFortune` picks the fortune at index `seed mod len`
of the label's fixed list, where `seed = round(1000*alpha + 2000*beta +
3000*gamma + 4000*delta + 5000*theta + 8000*meditation)` and `mod` is the
JS `%` operator; a label not present in the table selects from the
`balanced` list; and the selection is a deterministic function of its
inputs (equal inputs give equal fortunes). -/
theorem C8_fortune_selection (category : String) (bw : Brainwaves) (ml : MLAnalysis) :
    (Rich.getRandomFortune category bw ml =
      (if 0 ≤ Rich.jsRem (Rich.fortuneSeed bw ml)
          (((List.lookup category Rich.fortunes).getD Rich.balancedFortunes).length : ℤ) then
        ((List.lookup category Rich.fortunes).getD Rich.balancedFortunes).get?
          (Rich.jsRem (Rich.fortuneSeed bw ml)
            (((List.lookup category Rich.fortunes).getD Rich.balancedFortunes).length : ℤ)).toNat
      else none)) ∧
    (List.lookup category Rich.fortunes = none →
      Rich.getRandomFortune category bw ml = Rich.getRandomFortune "balanced" bw ml) ∧
    (∀ bw2 ml2, bw = bw2 → ml = ml2 →
      Rich.getRandomFortune category bw ml = Rich.getRandomFortune category bw2 ml2) := by
  refine ⟨rfl, ?_, ?_⟩
  · intro h
    have hb : List.lookup "balanced" Rich.fortunes = some Rich.balancedFortunes := by rfl
    simp only [Rich.getRandomFortune, h, hb, Option.getD_none, Option.getD_some]
  · rintro bw2 ml2 rfl rfl
    rfl

/-- Witness for claim C8: the unknown label `mystery_state` selects from
the balanced list, and equal inputs give the same fortune. -/
theorem C8_fortune_selection_witness :
    (Rich.getRandomFortune "mystery_state" ⟨1, 0, 0, 0, 0⟩ ⟨0, 0, 0, 0⟩ =
      Rich.getRandomFortune "balanced" ⟨1, 0, 0, 0, 0⟩ ⟨0, 0, 0, 0⟩) ∧
    (Rich.getRandomFortune "alpha_clear" ⟨1, 0, 0, 0, 0⟩ ⟨0, 0, 0, 0⟩ =
      Rich.getRandomFortune "alpha_clear" ⟨1, 0, 0, 0, 0⟩ ⟨0, 0, 0, 0⟩) :=
  ⟨(C8_fortune_selection "mystery_state" ⟨1, 0, 0, 0, 0⟩ ⟨0, 0, 0, 0⟩).2.1 rfl,
    (C8_fortune_selection "alpha_clear" ⟨1, 0, 0, 0, 0⟩ ⟨0, 0, 0, 0⟩).2.2
      ⟨1, 0, 0, 0, 0⟩ ⟨0, 0, 0, 0⟩ rfl rfl⟩

/-! ## The identifier codec (identical in src/brainwave.js lines 89-144 and
src/unnamed/part_000 lines 100-155)

Strings are `List Char`.  The platform pieces (`btoa`, `atob` per the WHATWG
forgiving-base64 algorithm, decimal rendering of numbers, `parseInt` on the
digit strings captured by the regexes, bitwise `^` through ToInt32) are
modelled from their specifications; the repository functions `encodeId` and
`decodeId` are translated line by line. -/

/-- The decimal digit character for `n` (`0`-`9`; only ever applied below 10). -/
def digitChar : Nat → Char
  | 0 => '0'
  | 1 => '1'
  | 2 => '2'
  | 3 => '3'
  | 4 => '4'
  | 5 => '5'
  | 6 => '6'
  | 7 => '7'
  | 8 => '8'
  | _ => '9'

/-- The regex class `\d`: an ASCII decimal digit. -/
def isDigit (c : Char) : Bool := decide (48 ≤ c.toNat) && decide (c.toNat ≤ 57)

/-- Numeric value of a decimal digit character. -/
def digitVal (c : Char) : Nat := c.toNat - 48

/-- JS decimal rendering of a non-negative integer (template literal `${n}`):
most-significant digit first, `"0"` for zero. -/
def natChars (n : Nat) : List Char :=
  if n = 0 then ['0'] else (Nat.digits 10 n).reverse.map digitChar

/-- JS decimal rendering of an integer: a `-` sign for negatives. -/
def intChars (i : ℤ) : List Char :=
  if i < 0 then '-' :: natChars i.natAbs else natChars i.toNat

/-- `parseInt` on a nonempty all-digit string: left fold of digit values. -/
def parseDigits (cs : List Char) : Nat :=
  cs.foldl (fun acc c => acc * 10 + digitVal c) 0

/-- The base64 alphabet, indices 0-63. -/
def b64Chars : List Char :=
  ['A', 'B', 'C', 'D', 'E', 'F', 'G', 'H', 'I', 'J', 'K', 'L', 'M',
   'N', 'O', 'P', 'Q', 'R', 'S', 'T', 'U', 'V', 'W', 'X', 'Y', 'Z',
   'a', 'b', 'c', 'd', 'e', 'f', 'g', 'h', 'i', 'j', 'k', 'l', 'm',
   'n', 'o', 'p', 'q', 'r', 's', 't', 'u', 'v', 'w', 'x', 'y', 'z',
   '0', '1', '2', '3', '4', '5', '6', '7', '8', '9', '+', '/']

/-- The alphabet character of a sextet (only ever applied below 64). -/
def sextetChar (n : Nat) : Char := b64Chars.getD n '='

/-- The sextet value of an alphabet character, `none` outside the alphabet. -/
def b64IndexOf (c : Char) : Option Nat := b64Chars.findIdx? (· == c)

/-- Base64 encoding of a byte list, three bytes to four characters, with
trailing `=` padding on a final partial group. -/
def b64Encode : List Nat → List Char
  | [] => []
  | [a] => [sextetChar (a / 4), sextetChar (a % 4 * 16), '=', '=']
  | [a, b] => [sextetChar (a / 4), sextetChar (a % 4 * 16 + b / 16),
      sextetChar (b % 16 * 4), '=']
  | a :: b :: c :: rest =>
    sextetChar (a / 4) :: sextetChar (a % 4 * 16 + b / 16) ::
      sextetChar (b % 16 * 4 + c / 64) :: sextetChar (c % 64) :: b64Encode rest

/-- `btoa(s)`: base64-encode the code points of `s`.  (The platform function
throws on code points above 255; every call site below passes ASCII.) -/
def btoa (s : List Char) : List Char := b64Encode (s.map Char.toNat)

/-- `.replace(/=+$/, '')`: remove every trailing `=`. -/
def stripTrailingEq (s : List Char) : List Char :=
  (s.reverse.dropWhile (· == '=')).reverse

/-- ASCII whitespace removed by forgiving-base64 decoding. -/
def isB64Space (c : Char) : Bool :=
  c == ' ' || c == '\t' || c == '\n' || c == Char.ofNat 12 || c == '\r'

/-- Forgiving-base64 step 2: when the length is a multiple of four, remove
up to two trailing `=`. -/
def dropTrailingPadding (s : List Char) : List Char :=
  match s.reverse with
  | c1 :: c2 :: rest =>
    if c1 = '=' then (if c2 = '=' then rest.reverse else (c2 :: rest).reverse) else s
  | [c1] => if c1 = '=' then [] else s
  | [] => s

/-- Forgiving-base64 bit reassembly: four sextets to three bytes, a final
group of two or three sextets to one or two bytes (leftover bits discarded). -/
def b64DecodeSextets : List Nat → List Nat
  | a :: b :: c :: d :: rest =>
    (a * 4 + b / 16) :: (b % 16 * 16 + c / 4) :: (c % 4 * 64 + d) ::
      b64DecodeSextets rest
  | [a, b] => [a * 4 + b / 16]
  | [a, b, c] => [a * 4 + b / 16, b % 16 * 16 + c / 4]
  | _ => []

/-- `atob(s)` per the WHATWG forgiving-base64 decode: strip ASCII whitespace,
strip up to two trailing `=` when the length is a multiple of four, fail on a
remaining length of 1 mod 4 or any character outside the alphabet, else
decode; `none` models the thrown `InvalidCharacterError`. -/
def atob (input : List Char) : Option (List Char) :=
  let data0 := input.filter fun c => !(isB64Space c)
  let data := if data0.length % 4 = 0 then dropTrailingPadding data0 else data0
  if data.length % 4 = 1 then none
  else if data.all fun c => (b64IndexOf c).isSome then
    some ((b64DecodeSextets (data.filterMap b64IndexOf)).map Char.ofNat)
  else none

/-- ToUint32: the unsigned 32-bit pattern of an integer. -/
def toUInt32 (i : ℤ) : Nat := (Int.emod i 4294967296).toNat

/-- The JS bitwise `^` operator: both operands through ToInt32, exclusive or
on the 32-bit patterns, result read back as a signed 32-bit integer. -/
def jsXor (a b : ℤ) : ℤ :=
  let u := Nat.xor (toUInt32 a) (toUInt32 b)
  if u < 2147483648 then (u : ℤ) else (u : ℤ) - 4294967296

/-- `encodeId(headband, run)` (src/brainwave.js lines 89-99, identically
src/unnamed/part_000 lines 100-110): obfuscate both values, join as
`"{obfuscatedHeadband}x{obfuscatedRun}"`, base64-encode and strip the
padding.  The joined string is ASCII, so `btoa` cannot throw. -/
def encodeId (headband run : ℤ) : List Char :=
  let obfuscatedHeadband := jsXor headband 11 + 37
  let obfuscatedRun := jsXor run 42 * 17 + 531
  let idString := intChars obfuscatedHeadband ++ 'x' :: intChars obfuscatedRun
  stripTrailingEq (btoa idString)

/-- The decoded identifier: fortune mode or data mode (`null` is `none` of
the `Option` at the use sites). -/
inductive Identifier where
  | fortune (timestamp : Nat)
  | data (headband run : ℤ)
  deriving DecidableEq

/-- The padding-restoration step of `decodeId`:
`encodedId + '='.repeat((4 - (encodedId.length % 4)) % 4)`. -/
def restorePadding (encodedId : List Char) : List Char :=
  encodedId ++ List.replicate ((4 - encodedId.length % 4) % 4) '='

/-- The regex match `decoded.match(/^f(\d+)$/)`: a leading `f` followed by
one or more digits, spanning the whole string; captures the digit run. -/
def matchFortune (s : List Char) : Option Nat :=
  if s.head? = some 'f' then
    if !s.tail.isEmpty && s.tail.all isDigit then some (parseDigits s.tail) else none
  else none

/-- The tail `-?\d+$` of the data regex: an optional minus sign followed by
one or more digits, spanning the whole string; yields the signed value. -/
def matchSigned (s : List Char) : Option ℤ :=
  if s.head? = some '-' then
    if !s.tail.isEmpty && s.tail.all isDigit then some (-(parseDigits s.tail : ℤ))
    else none
  else if !s.isEmpty && s.all isDigit then some ((parseDigits s : ℤ))
  else none

/-- The regex match `decoded.match(/^(\d+)x(-?\d+)$/)`: one or more digits,
an `x`, then the signed digit run, spanning the whole string.  The greedy
`(\d+)` is the maximal digit prefix, since backtracking cannot move the `x`. -/
def matchData (s : List Char) : Option (Nat × ℤ) :=
  let ds := s.takeWhile isDigit
  let rest := s.dropWhile isDigit
  if ds.isEmpty then none
  else if rest.head? = some 'x' then
    (matchSigned rest.tail).map fun r => (parseDigits ds, r)
  else none

/-- `decodeId(encodedId)` (src/brainwave.js lines 108-144, identically
src/unnamed/part_000 lines 119-155): restore padding, `atob`, try the
fortune regex, then the data regex with the arithmetic reversed
(`headband = (obf - 37) ^ 0xB`, `run = ((obf - 531) / 17) ^ 0x2A`, the
division truncated by ToInt32 inside `^`); every failure — the `atob` throw
included, caught by the `try` block — yields `null`. -/
def decodeId (encodedId : List Char) : Option Identifier :=
  match atob (restorePadding encodedId) with
  | none => none
  | some decoded =>
    match matchFortune decoded with
    | some timestamp => some (Identifier.fortune timestamp)
    | none =>
      match matchData decoded with
      | some (obfuscatedHeadband, obfuscatedRun) =>
        some (Identifier.data (jsXor ((obfuscatedHeadband : ℤ) - 37) 11)
          (jsXor (Int.tdiv ((obfuscatedRun : ℤ) - 531) 17) 42))
      | none => none

theorem b64IndexOf_sextetChar : ∀ n, n < 64 → b64IndexOf (sextetChar n) = some n := by
  decide

theorem sextetChar_not_space : ∀ n, n < 64 → isB64Space (sextetChar n) = false := by
  decide

theorem sextetChar_ne_pad : ∀ n, n < 64 → (sextetChar n == '=') = false := by
  decide

theorem digitVal_digitChar : ∀ d, d < 10 → digitVal (digitChar d) = d := by
  decide

theorem isDigit_digitChar : ∀ d, d < 10 → isDigit (digitChar d) = true := by
  decide

theorem parseDigits_append (xs : List Char) (c : Char) :
    parseDigits (xs ++ [c]) = parseDigits xs * 10 + digitVal c := by
  simp [parseDigits, List.foldl_append]

theorem parseDigits_rev_digits (ds : List Nat) (h : ∀ d ∈ ds, d < 10) :
    parseDigits (ds.reverse.map digitChar) = Nat.ofDigits 10 ds := by
  induction ds with
  | nil => rfl
  | cons d rest ih =>
    rw [List.reverse_cons, List.map_append, List.map_cons, List.map_nil,
      parseDigits_append, ih fun x hx => h x (List.mem_cons_of_mem _ hx),
      digitVal_digitChar d (h d (List.mem_cons_self _ _)), Nat.ofDigits_cons]
    ring

theorem parseDigits_natChars (n : Nat) : parseDigits (natChars n) = n := by
  rw [natChars]
  split
  · rename_i h
    rw [h]
    rfl
  · rw [parseDigits_rev_digits _ fun d hd => Nat.digits_lt_base (by norm_num) hd,
      Nat.ofDigits_digits]

theorem natChars_all_digits (n : Nat) : ∀ c ∈ natChars n, isDigit c = true := by
  rw [natChars]
  split
  · intro c hc
    simp only [List.mem_singleton] at hc
    rw [hc]
    decide
  · intro c hc
    rw [List.mem_map] at hc
    obtain ⟨d, hd, rfl⟩ := hc
    exact isDigit_digitChar d (Nat.digits_lt_base (by norm_num) (List.mem_reverse.mp hd))

theorem natChars_ne_nil (n : Nat) : natChars n ≠ [] := by
  rw [natChars]
  split
  · simp
  · rename_i h
    simp only [ne_eq, List.map_eq_nil_iff, List.reverse_eq_nil_iff]
    exact Nat.digits_ne_nil_iff_ne_zero.mpr h

theorem intChars_natCast (m : Nat) : intChars (m : ℤ) = natChars m := by
  rw [intChars, if_neg (not_lt.mpr (Int.natCast_nonneg m))]
  norm_num

theorem toUInt32_natCast (n : Nat) (hn : n < 4294967296) : toUInt32 (n : ℤ) = n := by
  rw [toUInt32]
  show ((n : ℤ) % 4294967296).toNat = n
  rw [Int.emod_eq_of_lt (Int.natCast_nonneg n) (by exact_mod_cast hn)]
  exact Int.toNat_natCast n

theorem jsXor_nat (a b : Nat) (ha : a < 2147483648) (hb : b < 2147483648) :
    jsXor (a : ℤ) (b : ℤ) = ((Nat.xor a b : ℕ) : ℤ) := by
  rw [jsXor, toUInt32_natCast a (by omega), toUInt32_natCast b (by omega)]
  have hx : Nat.xor a b < 2147483648 := by
    have h1 : a < 2 ^ 31 := by omega
    have h2 : b < 2 ^ 31 := by omega
    have h3 := Nat.xor_lt_two_pow h1 h2
    have h4 : (2:ℕ) ^ 31 = 2147483648 := by norm_num
    rw [h4] at h3
    exact h3
  rw [if_pos hx]

theorem sextetChar_mem (n : Nat) : sextetChar n ∈ b64Chars ∨ sextetChar n = '=' := by
  rw [sextetChar, List.getD_eq_getElem?_getD]
  rcases h : b64Chars[n]? with _ | c
  · right
    rfl
  · left
    rw [Option.getD_some]
    exact List.getElem?_mem h

theorem b64Chars_not_space : ∀ c ∈ b64Chars, isB64Space c = false := by
  decide

theorem b64Encode_chars (bs : List Nat) : ∀ c ∈ b64Encode bs, c ∈ b64Chars ∨ c = '=' := by
  induction bs using b64Encode.induct with
  | case1 =>
    intro c hc
    exact absurd hc (List.not_mem_nil c)
  | case2 a =>
    intro c hc
    simp only [b64Encode, List.mem_cons, List.not_mem_nil, or_false] at hc
    rcases hc with rfl | rfl | rfl | rfl
    · exact sextetChar_mem _
    · exact sextetChar_mem _
    · exact Or.inr rfl
    · exact Or.inr rfl
  | case3 a b =>
    intro c hc
    simp only [b64Encode, List.mem_cons, List.not_mem_nil, or_false] at hc
    rcases hc with rfl | rfl | rfl | rfl
    · exact sextetChar_mem _
    · exact sextetChar_mem _
    · exact sextetChar_mem _
    · exact Or.inr rfl
  | case4 a b c rest ih =>
    intro d hd
    simp only [b64Encode, List.mem_cons] at hd
    rcases hd with rfl | rfl | rfl | rfl | hd
    · exact sextetChar_mem _
    · exact sextetChar_mem _
    · exact sextetChar_mem _
    · exact sextetChar_mem _
    · exact ih d hd

theorem filter_nospace_b64Encode (bs : List Nat) :
    (b64Encode bs).filter (fun c => !(isB64Space c)) = b64Encode bs := by
  apply List.filter_eq_self.mpr
  intro c hc
  rcases b64Encode_chars bs c hc with h | h
  · rw [b64Chars_not_space c h]
    rfl
  · rw [h]
    decide

theorem b64Encode_length_mod (bs : List Nat) : (b64Encode bs).length % 4 = 0 := by
  induction bs using b64Encode.induct with
  | case1 => rfl
  | case2 a => simp [b64Encode]
  | case3 a b => simp [b64Encode]
  | case4 a b c rest ih =>
    simp only [b64Encode, List.length_cons]
    omega

theorem b64Encode_cons (a : Nat) (bs : List Nat) :
    ∃ t, b64Encode (a :: bs) = sextetChar (a / 4) :: t := by
  match bs with
  | [] => exact ⟨_, rfl⟩
  | [b] => exact ⟨_, rfl⟩
  | b :: c :: rest => exact ⟨_, rfl⟩

theorem stripTrailingEq_ne_nil (c : Char) (t : List Char) (h : (c == '=') = false) :
    stripTrailingEq (c :: t) ≠ [] := by
  rw [stripTrailingEq]
  simp only [ne_eq, List.reverse_eq_nil_iff]
  intro hnil
  have hall := List.dropWhile_eq_nil_iff.mp hnil
  have hc := hall c (List.mem_reverse.mpr (List.mem_cons_self _ _))
  rw [h] at hc
  exact Bool.false_ne_true hc

theorem stripTrailingEq_append (xs ys : List Char) (h : stripTrailingEq ys ≠ []) :
    stripTrailingEq (xs ++ ys) = xs ++ stripTrailingEq ys := by
  have hne : ys.reverse.dropWhile (· == '=') ≠ [] := by
    intro hnil
    rw [stripTrailingEq, hnil] at h
    exact h rfl
  rw [stripTrailingEq, List.reverse_append, List.dropWhile_append,
    if_neg (by simpa [List.isEmpty_iff] using hne), List.reverse_append,
    List.reverse_reverse, stripTrailingEq]

theorem restorePadding_strip (bs : List Nat) :
    (∀ x ∈ bs, x < 256) → restorePadding (stripTrailingEq (b64Encode bs)) = b64Encode bs := by
  induction bs using b64Encode.induct with
  | case1 =>
    intro _
    rfl
  | case2 a =>
    intro hb
    have h2 : a % 4 * 16 < 64 := by omega
    have hstrip : stripTrailingEq [sextetChar (a / 4), sextetChar (a % 4 * 16), '=', '='] =
        [sextetChar (a / 4), sextetChar (a % 4 * 16)] := by
      rw [stripTrailingEq]
      simp [List.dropWhile_cons, sextetChar_ne_pad _ h2]
    show restorePadding (stripTrailingEq
      [sextetChar (a / 4), sextetChar (a % 4 * 16), '=', '=']) = _
    rw [hstrip]
    rfl
  | case3 a b =>
    intro hb
    have h3 : b % 16 * 4 < 64 := by omega
    have hstrip : stripTrailingEq [sextetChar (a / 4), sextetChar (a % 4 * 16 + b / 16),
        sextetChar (b % 16 * 4), '='] =
        [sextetChar (a / 4), sextetChar (a % 4 * 16 + b / 16), sextetChar (b % 16 * 4)] := by
      rw [stripTrailingEq]
      simp [List.dropWhile_cons, sextetChar_ne_pad _ h3]
    show restorePadding (stripTrailingEq
      [sextetChar (a / 4), sextetChar (a % 4 * 16 + b / 16), sextetChar (b % 16 * 4), '=']) = _
    rw [hstrip]
    rfl
  | case4 a b c rest ih =>
    intro hb
    have hrest : ∀ x ∈ rest, x < 256 := fun x hx => hb x (by simp [hx])
    have hc64 : c % 64 < 64 := by omega
    rcases eq_or_ne rest [] with rfl | hne
    · have hstrip : stripTrailingEq [sextetChar (a / 4), sextetChar (a % 4 * 16 + b / 16),
          sextetChar (b % 16 * 4 + c / 64), sextetChar (c % 64)] =
          [sextetChar (a / 4), sextetChar (a % 4 * 16 + b / 16),
            sextetChar (b % 16 * 4 + c / 64), sextetChar (c % 64)] := by
        rw [stripTrailingEq]
        simp [List.dropWhile_cons, sextetChar_ne_pad _ hc64]
      show restorePadding (stripTrailingEq [sextetChar (a / 4), sextetChar (a % 4 * 16 + b / 16),
        sextetChar (b % 16 * 4 + c / 64), sextetChar (c % 64)]) = _
      rw [hstrip]
      simp [restorePadding, b64Encode]
    · obtain ⟨r0, rtail, rfl⟩ := List.exists_cons_of_ne_nil hne
      obtain ⟨t, ht⟩ := b64Encode_cons r0 rtail
      have hr0 : r0 / 4 < 64 := by
        have := hrest r0 (List.mem_cons_self _ _)
        omega
      have hsne : stripTrailingEq (b64Encode (r0 :: rtail)) ≠ [] := by
        rw [ht]
        exact stripTrailingEq_ne_nil _ _ (sextetChar_ne_pad _ hr0)
      have hchunk : b64Encode (a :: b :: c :: r0 :: rtail) =
          [sextetChar (a / 4), sextetChar (a % 4 * 16 + b / 16),
            sextetChar (b % 16 * 4 + c / 64), sextetChar (c % 64)] ++
            b64Encode (r0 :: rtail) := rfl
      have hres := ih hrest
      rw [restorePadding] at hres
      rw [hchunk, stripTrailingEq_append _ _ hsne, restorePadding, List.append_assoc]
      have hN : (4 - ([sextetChar (a / 4), sextetChar (a % 4 * 16 + b / 16),
          sextetChar (b % 16 * 4 + c / 64), sextetChar (c % 64)] ++
            stripTrailingEq (b64Encode (r0 :: rtail))).length % 4) % 4 =
          (4 - (stripTrailingEq (b64Encode (r0 :: rtail))).length % 4) % 4 := by
        simp only [List.length_append, List.length_cons, List.length_nil]
        omega
      rw [hN, hres]

/-- Proof helper: the sextet stream of `b64Encode` without the padding
characters (what forgiving-base64 sees after stripping `=`). -/
def b64EncodeRaw : List Nat → List Nat
  | [] => []
  | [a] => [a / 4, a % 4 * 16]
  | [a, b] => [a / 4, a % 4 * 16 + b / 16, b % 16 * 4]
  | a :: b :: c :: rest =>
    a / 4 :: (a % 4 * 16 + b / 16) :: (b % 16 * 4 + c / 64) :: c % 64 :: b64EncodeRaw rest

theorem dropTrailingPadding_append (xs ys : List Char) (h : 2 ≤ ys.length) :
    dropTrailingPadding (xs ++ ys) = xs ++ dropTrailingPadding ys := by
  match hrev : ys.reverse with
  | [] =>
    rw [List.reverse_eq_nil_iff] at hrev
    rw [hrev] at h
    exact absurd h (by norm_num)
  | [y1] =>
    have : ys.length = 1 := by
      rw [← List.length_reverse, hrev]
      rfl
    omega
  | y1 :: y2 :: yr =>
    have hxs : (xs ++ ys).reverse = y1 :: y2 :: (yr ++ xs.reverse) := by
      rw [List.reverse_append, hrev]
      rfl
    unfold dropTrailingPadding
    rw [hrev, hxs]
    by_cases h1 : y1 = '=' <;> by_cases h2 : y2 = '=' <;>
      simp [h1, h2, List.reverse_append, List.reverse_reverse, List.reverse_cons,
        List.append_assoc]

theorem b64EncodeRaw_lt (bs : List Nat) :
    (∀ x ∈ bs, x < 256) → ∀ v ∈ b64EncodeRaw bs, v < 64 := by
  induction bs using b64EncodeRaw.induct with
  | case1 =>
    intro _ v hv
    exact absurd hv (List.not_mem_nil v)
  | case2 a =>
    intro hb v hv
    have ha := hb a (List.mem_cons_self _ _)
    simp only [b64EncodeRaw, List.mem_cons, List.not_mem_nil, or_false] at hv
    rcases hv with rfl | rfl <;> omega
  | case3 a b =>
    intro hb v hv
    have ha := hb a (by simp)
    have hb' := hb b (by simp)
    simp only [b64EncodeRaw, List.mem_cons, List.not_mem_nil, or_false] at hv
    rcases hv with rfl | rfl | rfl <;> omega
  | case4 a b c rest ih =>
    intro hb v hv
    have ha := hb a (by simp)
    have hb' := hb b (by simp)
    have hc' := hb c (by simp)
    simp only [b64EncodeRaw, List.mem_cons] at hv
    rcases hv with rfl | rfl | rfl | rfl | hv
    · omega
    · omega
    · omega
    · omega
    · exact ih (fun x hx => hb x (by simp [hx])) v hv

theorem b64EncodeRaw_len (bs : List Nat) : (b64EncodeRaw bs).length % 4 ≠ 1 := by
  induction bs using b64EncodeRaw.induct with
  | case1 => simp [b64EncodeRaw]
  | case2 a => simp [b64EncodeRaw]
  | case3 a b => simp [b64EncodeRaw]
  | case4 a b c rest ih =>
    simp only [b64EncodeRaw, List.length_cons]
    omega

theorem dropPad_b64Encode (bs : List Nat) :
    (∀ x ∈ bs, x < 256) →
      dropTrailingPadding (b64Encode bs) = (b64EncodeRaw bs).map sextetChar := by
  induction bs using b64Encode.induct with
  | case1 =>
    intro _
    rfl
  | case2 a =>
    intro hb
    have h2 : sextetChar (a % 4 * 16) ≠ '=' := by
      simpa using sextetChar_ne_pad _ (by omega : a % 4 * 16 < 64)
    simp [b64Encode, dropTrailingPadding, b64EncodeRaw, h2]
  | case3 a b =>
    intro hb
    have h3 : sextetChar (b % 16 * 4) ≠ '=' := by
      simpa using sextetChar_ne_pad _ (by omega : b % 16 * 4 < 64)
    simp [b64Encode, dropTrailingPadding, b64EncodeRaw, h3]
  | case4 a b c rest ih =>
    intro hb
    have hrest : ∀ x ∈ rest, x < 256 := fun x hx => hb x (by simp [hx])
    rcases eq_or_ne rest [] with rfl | hne
    · have h4 : sextetChar (c % 64) ≠ '=' := by
        simpa using sextetChar_ne_pad _ (by omega : c % 64 < 64)
      simp [b64Encode, dropTrailingPadding, b64EncodeRaw, h4]
    · obtain ⟨r0, rtail, rfl⟩ := List.exists_cons_of_ne_nil hne
      obtain ⟨t, ht⟩ := b64Encode_cons r0 rtail
      have h2le : 2 ≤ (b64Encode (r0 :: rtail)).length := by
        have hm := b64Encode_length_mod (r0 :: rtail)
        have : (b64Encode (r0 :: rtail)).length = t.length + 1 := by
          rw [ht]
          rfl
        omega
      have hchunk : b64Encode (a :: b :: c :: r0 :: rtail) =
          [sextetChar (a / 4), sextetChar (a % 4 * 16 + b / 16),
            sextetChar (b % 16 * 4 + c / 64), sextetChar (c % 64)] ++
            b64Encode (r0 :: rtail) := rfl
      rw [hchunk, dropTrailingPadding_append _ _ h2le, ih hrest]
      rfl

theorem filterMap_sextet (l : List Nat) (h : ∀ v ∈ l, v < 64) :
    (l.map sextetChar).filterMap b64IndexOf = l := by
  induction l with
  | nil => rfl
  | cons v rest ih =>
    rw [List.map_cons, List.filterMap_cons, b64IndexOf_sextetChar v (h v (by simp))]
    rw [ih fun x hx => h x (by simp [hx])]

theorem map_sextet_all_isSome (l : List Nat) (h : ∀ v ∈ l, v < 64) :
    (l.map sextetChar).all (fun c => (b64IndexOf c).isSome) = true := by
  rw [List.all_eq_true]
  intro c hc
  obtain ⟨v, hv, rfl⟩ := List.mem_map.mp hc
  rw [b64IndexOf_sextetChar v (h v hv)]
  rfl

theorem b64DecodeSextets_raw (bs : List Nat) :
    (∀ x ∈ bs, x < 256) → b64DecodeSextets (b64EncodeRaw bs) = bs := by
  induction bs using b64EncodeRaw.induct with
  | case1 =>
    intro _
    rfl
  | case2 a =>
    intro hb
    have ha := hb a (by simp)
    simp only [b64EncodeRaw, b64DecodeSextets, List.cons.injEq, and_true]
    omega
  | case3 a b =>
    intro hb
    have ha := hb a (by simp)
    have hb' := hb b (by simp)
    simp only [b64EncodeRaw, b64DecodeSextets, List.cons.injEq, and_true]
    refine ⟨by omega, by omega⟩
  | case4 a b c rest ih =>
    intro hb
    have ha := hb a (by simp)
    have hb' := hb b (by simp)
    have hc' := hb c (by simp)
    simp only [b64EncodeRaw, b64DecodeSextets, List.cons.injEq]
    refine ⟨by omega, by omega, by omega, ih fun x hx => hb x (by simp [hx])⟩

theorem atob_b64Encode (bs : List Nat) (hb : ∀ x ∈ bs, x < 256) :
    atob (b64Encode bs) = some (bs.map Char.ofNat) := by
  simp only [atob]
  rw [filter_nospace_b64Encode, if_pos (b64Encode_length_mod bs), dropPad_b64Encode bs hb,
    if_neg (by rw [List.length_map]; exact b64EncodeRaw_len bs),
    if_pos (map_sextet_all_isSome _ (b64EncodeRaw_lt bs hb)),
    filterMap_sextet _ (b64EncodeRaw_lt bs hb), b64DecodeSextets_raw bs hb]

theorem takeWhile_digits_append (xs : List Char) (y : Char) (ys : List Char)
    (hx : ∀ c ∈ xs, isDigit c = true) (hy : isDigit y = false) :
    (xs ++ y :: ys).takeWhile isDigit = xs := by
  induction xs with
  | nil => simp [List.takeWhile_cons, hy]
  | cons c t ih =>
    rw [List.cons_append, List.takeWhile_cons, hx c (by simp)]
    simp only [if_true]
    rw [ih fun d hd => hx d (by simp [hd])]

theorem dropWhile_digits_append (xs : List Char) (y : Char) (ys : List Char)
    (hx : ∀ c ∈ xs, isDigit c = true) (hy : isDigit y = false) :
    (xs ++ y :: ys).dropWhile isDigit = y :: ys := by
  induction xs with
  | nil => simp [List.dropWhile_cons, hy]
  | cons c t ih =>
    rw [List.cons_append, List.dropWhile_cons, hx c (by simp)]
    simp only [if_true]
    exact ih fun d hd => hx d (by simp [hd])

theorem digit_toNat_le (c : Char) (h : isDigit c = true) : c.toNat ≤ 57 := by
  simp only [isDigit, Bool.and_eq_true, decide_eq_true_eq] at h
  exact h.2

theorem matchFortune_of_digit_head (c : Char) (t : List Char) (h : isDigit c = true) :
    matchFortune (c :: t) = none := by
  rw [matchFortune, if_neg]
  simp only [List.head?_cons, Option.some.injEq]
  rintro rfl
  have := digit_toNat_le _ h
  revert this
  decide

theorem matchSigned_digits (s : List Char) (hne : s ≠ []) (hd : ∀ c ∈ s, isDigit c = true) :
    matchSigned s = some ((parseDigits s : ℤ)) := by
  obtain ⟨c, t, rfl⟩ := List.exists_cons_of_ne_nil hne
  rw [matchSigned, if_neg, if_pos]
  · simp only [Bool.and_eq_true, List.all_eq_true]
    refine ⟨by simp, fun d hd' => hd d hd'⟩
  · simp only [List.head?_cons, Option.some.injEq]
    rintro rfl
    have := hd '-' (List.mem_cons_self _ _)
    revert this
    decide

theorem matchData_digits_x_digits (ds sfx : List Char)
    (hds : ds ≠ []) (hda : ∀ c ∈ ds, isDigit c = true)
    (hsx : sfx ≠ []) (hsa : ∀ c ∈ sfx, isDigit c = true) :
    matchData (ds ++ 'x' :: sfx) = some (parseDigits ds, (parseDigits sfx : ℤ)) := by
  simp only [matchData]
  rw [takeWhile_digits_append ds 'x' sfx hda (by decide),
    dropWhile_digits_append ds 'x' sfx hda (by decide),
    if_neg (by simp [List.isEmpty_iff, hds]), if_pos (by simp)]
  show (matchSigned sfx).map _ = _
  rw [matchSigned_digits sfx hsx hsa, Option.map_some']

theorem jsXor_11 (a : Nat) (ha : a < 2147483648) :
    jsXor (a : ℤ) 11 = ((Nat.xor a 11 : ℕ) : ℤ) := by
  have h := jsXor_nat a 11 ha (by norm_num)
  simpa using h

theorem jsXor_42 (a : Nat) (ha : a < 2147483648) :
    jsXor (a : ℤ) 42 = ((Nat.xor a 42 : ℕ) : ℤ) := by
  have h := jsXor_nat a 42 ha (by norm_num)
  simpa using h

theorem tdiv_natCast (a b : Nat) : Int.tdiv (a : ℤ) (b : ℤ) = ((a / b : ℕ) : ℤ) := rfl

theorem natXor_cancel (m n : ℕ) : Nat.xor (Nat.xor m n) n = m :=
  Nat.xor_cancel_right n m

/-- Claim C1: for every integer headband in `[0, 10]` and run in `[1, 10000]`,
decoding the token produced by `encodeId(headband, run)` returns
`{mode: 'data', headband, run}`: `decodeId` is a left inverse of `encodeId`
on this domain (XOR/offset obfuscation, base64 with padding stripped, then
reversed). -/
theorem C1_encode_decode_roundtrip (headband run : Nat) (h1 : headband ≤ 10)
    (h2 : 1 ≤ run) (h3 : run ≤ 10000) :
    decodeId (encodeId (headband : ℤ) (run : ℤ)) =
      some (Identifier.data (headband : ℤ) (run : ℤ)) := by
  have hxh : Nat.xor headband 11 < 16 := by
    have ha : headband < 2 ^ 4 := by omega
    have hb : (11 : ℕ) < 2 ^ 4 := by norm_num
    have h := Nat.xor_lt_two_pow ha hb
    have h16 : (2 : ℕ) ^ 4 = 16 := by norm_num
    rw [h16] at h
    exact h
  have hxr : Nat.xor run 42 < 16384 := by
    have ha : run < 2 ^ 14 := by omega
    have hb : (42 : ℕ) < 2 ^ 14 := by norm_num
    have h := Nat.xor_lt_two_pow ha hb
    have h14 : (2 : ℕ) ^ 14 = 16384 := by norm_num
    rw [h14] at h
    exact h
  have e1 : jsXor (headband : ℤ) 11 + 37 = ((Nat.xor headband 11 + 37 : ℕ) : ℤ) := by
    rw [jsXor_11 headband (by omega)]
    push_cast
    ring
  have e2 : jsXor (run : ℤ) 42 * 17 + 531 = ((Nat.xor run 42 * 17 + 531 : ℕ) : ℤ) := by
    rw [jsXor_42 run (by omega)]
    push_cast
    ring
  have hencode : encodeId (headband : ℤ) (run : ℤ) =
      stripTrailingEq (b64Encode ((natChars (Nat.xor headband 11 + 37) ++
        'x' :: natChars (Nat.xor run 42 * 17 + 531)).map Char.toNat)) := by
    simp only [encodeId, e1, e2, intChars_natCast, btoa]
  have hbytes : ∀ x ∈ (natChars (Nat.xor headband 11 + 37) ++
      'x' :: natChars (Nat.xor run 42 * 17 + 531)).map Char.toNat, x < 256 := by
    intro x hx
    rw [List.mem_map] at hx
    obtain ⟨c, hc, rfl⟩ := hx
    rcases List.mem_append.mp hc with hcl | hcr
    · have := digit_toNat_le c (natChars_all_digits _ c hcl)
      omega
    · rcases List.mem_cons.mp hcr with rfl | hcr'
      · decide
      · have := digit_toNat_le c (natChars_all_digits _ c hcr')
        omega
  have hatob : atob (restorePadding (encodeId (headband : ℤ) (run : ℤ))) =
      some (natChars (Nat.xor headband 11 + 37) ++
        'x' :: natChars (Nat.xor run 42 * 17 + 531)) := by
    rw [hencode, restorePadding_strip _ hbytes, atob_b64Encode _ hbytes, List.map_map]
    simp [Function.comp_def, Char.ofNat_toNat, show Char.ofNat 120 = 'x' from rfl]
  obtain ⟨c0, t0, hc0⟩ := List.exists_cons_of_ne_nil (natChars_ne_nil (Nat.xor headband 11 + 37))
  have hmf : matchFortune (natChars (Nat.xor headband 11 + 37) ++
      'x' :: natChars (Nat.xor run 42 * 17 + 531)) = none := by
    rw [hc0, List.cons_append]
    refine matchFortune_of_digit_head c0 _ ?_
    refine natChars_all_digits (Nat.xor headband 11 + 37) c0 ?_
    rw [hc0]
    exact List.mem_cons_self _ _
  have hmd : matchData (natChars (Nat.xor headband 11 + 37) ++
      'x' :: natChars (Nat.xor run 42 * 17 + 531)) =
      some (parseDigits (natChars (Nat.xor headband 11 + 37)),
        (parseDigits (natChars (Nat.xor run 42 * 17 + 531)) : ℤ)) :=
    matchData_digits_x_digits _ _ (natChars_ne_nil _) (natChars_all_digits _)
      (natChars_ne_nil _) (natChars_all_digits _)
  rw [decodeId]
  rw [hatob]
  simp only [hmf, hmd, parseDigits_natChars]
  have hh : jsXor (((Nat.xor headband 11 + 37 : ℕ) : ℤ) - 37) 11 = (headband : ℤ) := by
    have hcast : ((Nat.xor headband 11 + 37 : ℕ) : ℤ) - 37 = ((Nat.xor headband 11 : ℕ) : ℤ) := by
      push_cast
      ring
    rw [hcast, jsXor_11 _ (by omega), natXor_cancel]
  have hr : jsXor (Int.tdiv (((Nat.xor run 42 * 17 + 531 : ℕ) : ℤ) - 531) 17) 42 =
      (run : ℤ) := by
    have hcast : ((Nat.xor run 42 * 17 + 531 : ℕ) : ℤ) - 531 =
        ((Nat.xor run 42 * 17 : ℕ) : ℤ) := by
      push_cast
      ring
    have hdiv : Int.tdiv ((Nat.xor run 42 * 17 : ℕ) : ℤ) 17 = ((Nat.xor run 42 : ℕ) : ℤ) := by
      have h17 : ((17 : ℕ) : ℤ) = (17 : ℤ) := by norm_num
      rw [← h17, tdiv_natCast, Nat.mul_div_cancel _ (by norm_num)]
    rw [hcast, hdiv, jsXor_42 _ (by omega), natXor_cancel]
  rw [hh, hr]

/-- Witness for claim C1 at `headband = 3`, `run = 5`. -/
theorem C1_encode_decode_roundtrip_witness :
    decodeId (encodeId ((3 : Nat) : ℤ) ((5 : Nat) : ℤ)) =
      some (Identifier.data ((3 : Nat) : ℤ) ((5 : Nat) : ℤ)) :=
  C1_encode_decode_roundtrip 3 5 (by norm_num) (by norm_num) (by norm_num)

theorem isEmpty_false_of_ne_nil (l : List Char) (h : l ≠ []) : l.isEmpty = false := by
  cases l
  · exact absurd rfl h
  · rfl

theorem ne_nil_of_not_isEmpty (l : List Char) (h : ¬(l.isEmpty = true)) : l ≠ [] := by
  cases l
  · exact absurd rfl h
  · simp

theorem ne_nil_of_isEmpty_false (l : List Char) (h : l.isEmpty = false) : l ≠ [] := by
  cases l
  · exact absurd h (by simp)
  · simp

theorem digitCond_true (l : List Char) (hne : l ≠ [])
    (hdig : ∀ c ∈ l, isDigit c = true) : (!l.isEmpty && l.all isDigit) = true := by
  rw [Bool.and_eq_true, Bool.not_eq_true', List.all_eq_true]
  exact ⟨isEmpty_false_of_ne_nil l hne, hdig⟩

theorem matchSigned_neg (ds2 : List Char) (hne : ds2 ≠ [])
    (hdig : ∀ c ∈ ds2, isDigit c = true) :
    matchSigned ('-' :: ds2) = some (-(parseDigits ds2 : ℤ)) := by
  rw [matchSigned, if_pos (by rw [List.head?_cons])]
  rw [if_pos]
  · rfl
  · exact digitCond_true ds2 hne hdig

theorem matchSigned_iff (s : List Char) (b : ℤ) :
    matchSigned s = some b ↔
      ((s ≠ [] ∧ (∀ c ∈ s, isDigit c = true) ∧ b = (parseDigits s : ℤ)) ∨
        (∃ ds2, s = '-' :: ds2 ∧ ds2 ≠ [] ∧ (∀ c ∈ ds2, isDigit c = true) ∧
          b = -(parseDigits ds2 : ℤ))) := by
  constructor
  · intro h
    rw [matchSigned] at h
    by_cases hdash : s.head? = some '-'
    · rw [if_pos hdash] at h
      by_cases hcond : (!s.tail.isEmpty && s.tail.all isDigit) = true
      · rw [if_pos hcond, Option.some.injEq] at h
        right
        match s, hdash, hcond, h with
        | c :: t, hdash, hcond, h =>
          rw [List.head?_cons, Option.some.injEq] at hdash
          subst hdash
          rw [Bool.and_eq_true, Bool.not_eq_true', List.all_eq_true] at hcond
          exact ⟨t, rfl, ne_nil_of_isEmpty_false t hcond.1, hcond.2, h.symm⟩
      · rw [if_neg hcond] at h
        exact absurd h (by simp)
    · rw [if_neg hdash] at h
      by_cases hcond2 : (!s.isEmpty && s.all isDigit) = true
      · rw [if_pos hcond2, Option.some.injEq] at h
        left
        rw [Bool.and_eq_true, Bool.not_eq_true', List.all_eq_true] at hcond2
        exact ⟨ne_nil_of_isEmpty_false s hcond2.1, hcond2.2, h.symm⟩
      · rw [if_neg hcond2] at h
        exact absurd h (by simp)
  · rintro (⟨hne, hdig, rfl⟩ | ⟨ds2, rfl, hne2, hdig2, rfl⟩)
    · exact matchSigned_digits s hne hdig
    · exact matchSigned_neg ds2 hne2 hdig2

theorem matchData_split (ds sfx : List Char) (hds : ds ≠ [])
    (hda : ∀ c ∈ ds, isDigit c = true) :
    matchData (ds ++ 'x' :: sfx) = (matchSigned sfx).map fun r => (parseDigits ds, r) := by
  simp only [matchData]
  rw [takeWhile_digits_append ds 'x' sfx hda (by decide),
    dropWhile_digits_append ds 'x' sfx hda (by decide),
    if_neg (by rw [isEmpty_false_of_ne_nil ds hds]; exact Bool.false_ne_true),
    if_pos (by rw [List.head?_cons])]
  rfl

theorem matchFortune_iff (s : List Char) (t : Nat) :
    matchFortune s = some t ↔
      ∃ ds, s = 'f' :: ds ∧ ds ≠ [] ∧ (∀ c ∈ ds, isDigit c = true) ∧ t = parseDigits ds := by
  constructor
  · intro h
    rw [matchFortune] at h
    by_cases hf : s.head? = some 'f'
    · rw [if_pos hf] at h
      by_cases hcond : (!s.tail.isEmpty && s.tail.all isDigit) = true
      · rw [if_pos hcond, Option.some.injEq] at h
        match s, hf, hcond, h with
        | c :: rest, hf, hcond, h =>
          rw [List.head?_cons, Option.some.injEq] at hf
          subst hf
          rw [Bool.and_eq_true, Bool.not_eq_true', List.all_eq_true] at hcond
          exact ⟨rest, rfl, ne_nil_of_isEmpty_false rest hcond.1, hcond.2, h.symm⟩
      · rw [if_neg hcond] at h
        exact absurd h (by simp)
    · rw [if_neg hf] at h
      exact absurd h (by simp)
  · rintro ⟨ds, rfl, hne, hdig, rfl⟩
    rw [matchFortune, if_pos (by rw [List.head?_cons])]
    rw [if_pos]
    · rfl
    · exact digitCond_true ds hne hdig

theorem matchData_iff (s : List Char) (a : Nat) (b : ℤ) :
    matchData s = some (a, b) ↔
      ∃ ds sfx, s = ds ++ 'x' :: sfx ∧ ds ≠ [] ∧ (∀ c ∈ ds, isDigit c = true) ∧
        a = parseDigits ds ∧ matchSigned sfx = some b := by
  constructor
  · intro h
    simp only [matchData] at h
    by_cases hemp : (s.takeWhile isDigit).isEmpty = true
    · rw [if_pos hemp] at h
      exact absurd h (by simp)
    · rw [if_neg hemp] at h
      by_cases hx : (s.dropWhile isDigit).head? = some 'x'
      · rw [if_pos hx, Option.map_eq_some'] at h
        obtain ⟨r, hr, hpair⟩ := h
        rw [Prod.mk.injEq] at hpair
        match hrest : s.dropWhile isDigit, hx with
        | c :: rt, hx =>
          rw [hrest] at hr
          rw [List.head?_cons, Option.some.injEq] at hx
          subst hx
          refine ⟨s.takeWhile isDigit, rt, ?_, ?_, ?_, ?_, ?_⟩
          · rw [← hrest]
            exact (List.takeWhile_append_dropWhile isDigit s).symm
          · exact ne_nil_of_not_isEmpty _ hemp
          · intro d hd
            exact List.mem_takeWhile_imp hd
          · exact hpair.1.symm
          · rw [← hpair.2]
            exact hr
      · rw [if_neg hx] at h
        exact absurd h (by simp)
  · rintro ⟨ds, sfx, rfl, hne, hdig, rfl, hsigned⟩
    rw [matchData_split ds sfx hne hdig, hsigned, Option.map_some']

/-- C2: counterexample.  The spec says padding restoration appends
`token.length % 4` padding characters, but `decodeId` appends
`(4 - token.length % 4) % 4` of them.  For the 3-character token `MTI`
the code appends 1 `=` (and base64 decoding succeeds, yielding `12`),
whereas the spec's count would be 3, and appending 3 `=` makes the
base64 decode fail outright. -/
theorem C2_counterexample :
    restorePadding ("MTI".toList) = "MTI".toList ++ List.replicate 1 '=' ∧
      ("MTI".toList).length % 4 = 3 ∧ (1 : ℕ) ≠ ("MTI".toList).length % 4 ∧
      atob ("MTI".toList ++ List.replicate (("MTI".toList).length % 4) '=') = none ∧
      atob (restorePadding ("MTI".toList)) = some ("12".toList) ∧
      decodeId ("MTI".toList) = none := by
  refine ⟨rfl, rfl, by decide, by decide, by decide, by decide⟩

/-- C2 (amended): for every token, `decodeId` restores base64 padding by
appending exactly `(4 - token.length % 4) % 4` padding characters — the
count that makes the padded length a multiple of 4, not `token.length % 4`
as the spec states — then base64-decodes and pattern-matches the decoded
string: `^f(\d+)$` yields fortune mode, otherwise `^(\d+)x(-?\d+)$` yields
data mode, where the two regex matchers are characterised exactly by their
regex semantics (a leading `f` then a non-empty all-digit run spanning the
string; a non-empty maximal digit run, an `x`, then an optionally
negated non-empty digit run spanning the string). -/
theorem C2_decode_structure_amended (token : List Char) :
    restorePadding token = token ++ List.replicate ((4 - token.length % 4) % 4) '=' ∧
    (token.length + (4 - token.length % 4) % 4) % 4 = 0 ∧
    (∀ decoded, atob (restorePadding token) = some decoded →
      ((∀ t, matchFortune decoded = some t →
          decodeId token = some (Identifier.fortune t)) ∧
       (matchFortune decoded = none → ∀ oh rn, matchData decoded = some (oh, rn) →
          decodeId token = some (Identifier.data (jsXor ((oh : ℤ) - 37) 11)
            (jsXor (Int.tdiv ((rn : ℤ) - 531) 17) 42))))) ∧
    (∀ decoded t, matchFortune decoded = some t ↔
       ∃ ds, decoded = 'f' :: ds ∧ ds ≠ [] ∧ (∀ c ∈ ds, isDigit c = true) ∧
         t = parseDigits ds) ∧
    (∀ decoded a b, matchData decoded = some (a, b) ↔
       ∃ ds sfx, decoded = ds ++ 'x' :: sfx ∧ ds ≠ [] ∧ (∀ c ∈ ds, isDigit c = true) ∧
         a = parseDigits ds ∧
         ((sfx ≠ [] ∧ (∀ c ∈ sfx, isDigit c = true) ∧ b = (parseDigits sfx : ℤ)) ∨
          (∃ ds2, sfx = '-' :: ds2 ∧ ds2 ≠ [] ∧ (∀ c ∈ ds2, isDigit c = true) ∧
            b = -(parseDigits ds2 : ℤ)))) := by
  refine ⟨rfl, by omega, ?_, ?_, ?_⟩
  · intro decoded hat
    constructor
    · intro t hf
      rw [decodeId, hat]
      simp only [hf]
    · intro hf oh rn hd
      rw [decodeId, hat]
      simp only [hf, hd]
  · intro decoded t
    exact matchFortune_iff decoded t
  · intro decoded a b
    rw [matchData_iff decoded a b]
    constructor
    · rintro ⟨ds, sfx, rfl, hne, hdig, rfl, hsigned⟩
      exact ⟨ds, sfx, rfl, hne, hdig, rfl, (matchSigned_iff sfx b).mp hsigned⟩
    · rintro ⟨ds, sfx, rfl, hne, hdig, rfl, hor⟩
      exact ⟨ds, sfx, rfl, hne, hdig, rfl, (matchSigned_iff sfx b).mpr hor⟩

/-- C10: `decodeId` is total on arbitrary input strings: it always returns
either a fortune identifier, a data identifier, or `none` (the model of
JavaScript `null`, which the `catch` block returns for any error raised
during padding restoration or base64 decoding); in particular whenever the
base64 decode of the padded token fails, the result is `none`. -/
theorem C10_decodeId_total (s : List Char) :
    (decodeId s = none ∨ (∃ t, decodeId s = some (Identifier.fortune t)) ∨
      (∃ hb rn, decodeId s = some (Identifier.data hb rn))) ∧
    (atob (restorePadding s) = none → decodeId s = none) := by
  constructor
  · rcases hd : decodeId s with _ | id
    · exact Or.inl rfl
    · rcases id with t | ⟨hb, rn⟩
      · exact Or.inr (Or.inl ⟨t, rfl⟩)
      · exact Or.inr (Or.inr ⟨hb, rn, rfl⟩)
  · intro h
    rw [decodeId, h]
